import Mathlib

/-!
Verification of the KumoRFM TypeScript SDK metadata-inference and validation
engine: a shallow embedding of `src/utils/data.ts`, `src/core/LocalTable.ts`,
`src/core/LocalGraph.ts` and the `PQLBuilder` of `src/index.ts`, together with
theorems about column type inference, table metadata inference, graph link
management, cycle detection and query building.

JavaScript host functions that the source calls (`Date.parse`, `Number`,
`Array`/`Set`/`Map` primitives, IEEE-754 comparisons) are modelled explicitly;
each model carries a comment stating which host behaviour it captures.
-/

namespace KumoRFM

/-- JavaScript runtime values as they occur in row data. Numbers are modelled
as integers (no analysed check distinguishes non-integral numbers), `date`
models a valid `Date` instance carrying its timestamp. -/
inductive JSValue where
  | null
  | undefined
  | num (n : Int)
  | str (s : String)
  | date (ms : Int)
  | bool (b : Bool)
deriving DecidableEq, Repr

/-- Models the loose test `v != null`, which is false exactly for `null` and
`undefined`. -/
def JSValue.isPresent : JSValue → Bool
  | .null => false
  | .undefined => false
  | _ => true

/-- String-to-lower over the character list (ASCII range), modelling
`String.prototype.toLowerCase` on the ASCII names used by the SDK. -/
def charLower (c : Char) : Char :=
  if c.toNat ≥ 65 && c.toNat ≤ 90 then Char.ofNat (c.toNat + 32) else c

/-- Models `s.toLowerCase()` (ASCII). -/
def toLowerS (s : String) : String := ⟨s.data.map charLower⟩

/-- Models `s.endsWith(sfx)`. -/
def endsWithS (s sfx : String) : Bool :=
  let n := s.data.length
  let m := sfx.data.length
  if m ≤ n then s.data.drop (n - m) == sfx.data else false

/-- Whitespace trimming, modelling `String.prototype.trim` on the common
whitespace characters (space, tab, newline, carriage return). -/
def trimC (c : Char) : Bool := c = ' ' || c = '\t' || c = '\n' || c = '\r'

/-- Models `s.trim()`. -/
def trimS (s : String) : String :=
  ⟨((s.data.dropWhile trimC).reverse.dropWhile trimC).reverse⟩

def isDigits (cs : List Char) : Bool := cs.all (·.isDigit)

def twoDigitVal (a b : Char) : Nat := (a.toNat - 48) * 10 + (b.toNat - 48)

/-- Models acceptance of a string by `Date.parse` restricted to the
ECMAScript-specified Date Time String Format (ECMA-262 21.4.1.32): the
date-only forms `YYYY`, `YYYY-MM` and `YYYY-MM-DD` with in-range month and
day fields. Strings outside the specified format are modelled as parsing to
`NaN`; ECMA-262 leaves them implementation-defined, and the repository's own
test suite (`kumo-rfm-tests.ts`) relies on such strings not being dates.
Time-of-day suffixes are omitted: no value analysed by the claims uses them. -/
def isISODateString (s : String) : Bool :=
  match s.data with
  | [y1, y2, y3, y4] => isDigits [y1, y2, y3, y4]
  | [y1, y2, y3, y4, '-', m1, m2] =>
      isDigits [y1, y2, y3, y4, m1, m2] &&
        decide (1 ≤ twoDigitVal m1 m2 ∧ twoDigitVal m1 m2 ≤ 12)
  | [y1, y2, y3, y4, '-', m1, m2, '-', d1, d2] =>
      isDigits [y1, y2, y3, y4, m1, m2, d1, d2] &&
        decide (1 ≤ twoDigitVal m1 m2 ∧ twoDigitVal m1 m2 ≤ 12) &&
        decide (1 ≤ twoDigitVal d1 d2 ∧ twoDigitVal d1 d2 ≤ 31)
  | _ => false

/-- Models the `ToString` coercion `Date.parse` applies to its argument
(`Date.parse(v)` first converts `v` to a string). The `date` case is never
consulted: the source checks `v instanceof Date` before calling `Date.parse`. -/
def jsToString : JSValue → String
  | .num n => toString n
  | .str s => s
  | .bool b => if b then "true" else "false"
  | .null => "null"
  | .undefined => "undefined"
  | .date _ => "[date]"

/-- Models `v instanceof Date || !isNaN(Date.parse(v))` from
`DataFrameUtils.inferColumnType`. -/
def jsDateCheck (v : JSValue) : Bool :=
  match v with
  | .date _ => true
  | _ => isISODateString (jsToString v)

/-- Decimal numeric literal body: `digits`, `digits.digits?` or `.digits`,
used by `isJSNumericString`. -/
def decCore (cs : List Char) : Bool :=
  match cs.span (·.isDigit) with
  | (ds, []) => !ds.isEmpty
  | (ds, '.' :: rest) => isDigits rest && (!ds.isEmpty || !rest.isEmpty)
  | _ => false

def signedDecCore (cs : List Char) : Bool :=
  match cs with
  | '+' :: rest => decCore rest
  | '-' :: rest => decCore rest
  | _ => decCore cs

/-- Models `!isNaN(Number(s))` for a string `s`: `Number` trims whitespace,
maps the empty remainder to `0`, and otherwise parses a numeric literal.
The decimal forms of the literal grammar are modelled; hexadecimal, exponent
and `Infinity` forms are omitted (no value analysed by the claims uses them,
and omitting them only shrinks the set of numeric strings). -/
def isJSNumericString (s : String) : Bool :=
  let t := trimS s
  t == "" || signedDecCore t.data

/-- Models `typeof v === 'number' || !isNaN(Number(v))` from
`DataFrameUtils.inferColumnType`. `Number(true) = 1`, `Number(false) = 0`,
`Number(validDate) =` its timestamp, `Number(null) = 0` (the null case is
unreachable: nulls are filtered out first), `Number(undefined) = NaN`. -/
def jsNumberCheck (v : JSValue) : Bool :=
  match v with
  | .num _ => true
  | .str s => isJSNumericString s
  | .bool _ => true
  | .date _ => true
  | .null => true
  | .undefined => false

/-- The `DataType` union of `src/core/types.ts`. -/
inductive DataType where
  | numerical
  | categorical
  | time_column
  | text
deriving DecidableEq, Repr

/-- Embedding of `DataFrameUtils.inferColumnType` (src/utils/data.ts lines
4-18). The cardinality test `uniqueValues.size / nonNullValues.length < 0.5`
is an IEEE-754 double division; for any list of length below 2^52 it holds
exactly when `2 * size < length` (the gap between `size/length` and `1/2` is
at least `1/(2*length)`, far above the rounding error of the division), so the
integer inequality is an exact model. -/
def inferColumnType (values : List JSValue) : DataType :=
  let nonNullValues := values.filter (·.isPresent)
  if nonNullValues.isEmpty then .text
  else if nonNullValues.all jsDateCheck then .time_column
  else if nonNullValues.all jsNumberCheck then .numerical
  else if 2 * nonNullValues.dedup.length < nonNullValues.length then .categorical
  else .text

/-- The `ColumnMetadata` interface of `src/core/types.ts`; the optional
numeric fields `uniqueValues` and `nullCount` are `Option Nat`. -/
structure ColumnMetadata where
  name : String
  type : DataType
  nullable : Bool
  primaryKey : Bool
  foreignKeys : List String
  uniqueValues : Option Nat
  nullCount : Option Nat
deriving DecidableEq, Repr

/-- Embedding of `DataFrameUtils.analyzeColumn` (src/utils/data.ts lines
20-32). `new Set(nonNullValues).size` is the number of distinct present
values, modelled by `List.dedup.length`. -/
def analyzeColumn (data : List JSValue) (columnName : String) : ColumnMetadata :=
  let nonNullValues := data.filter (·.isPresent)
  { name := columnName
    type := inferColumnType data
    nullable := data.length != nonNullValues.length
    primaryKey := false
    foreignKeys := []
    uniqueValues := some nonNullValues.dedup.length
    nullCount := some (data.length - nonNullValues.length) }

/-- A row: a JavaScript object mapping column names to scalar values, in key
insertion order. -/
abbrev Row := List (String × JSValue)

/-- Models `row[columnName]`: the value at the key, `undefined` when absent. -/
def rowGet (r : Row) (c : String) : JSValue :=
  match r.find? (fun p => p.1 == c) with
  | some p => p.2
  | none => .undefined

/-- Models `Object.keys(row)`. -/
def rowKeys (r : Row) : List String := r.map (·.1)

/-- The `TableLink` interface of `src/core/types.ts`. -/
structure TableLink where
  srcTable : String
  fkey : String
  dstTable : String
  validated : Bool
deriving DecidableEq, Repr

/-- The `TableMetadata` interface of `src/core/types.ts`; `semanticTypes` is a
plain object, modelled as an association list in key insertion order. The
stored semantic types are always drawn from the three-element `SemanticType`
union, represented here inside `DataType`. -/
structure TableMetadata where
  primaryKey : Option String := none
  timeColumn : Option String := none
  semanticTypes : List (String × DataType) := []
  columns : Option (List ColumnMetadata) := none
deriving DecidableEq, Repr

/-- The `TableSchema` interface of `src/core/types.ts`. -/
structure TableSchema where
  name : String
  columns : List ColumnMetadata
  relationships : List TableLink
  rowCount : Nat
  metadata : TableMetadata
deriving DecidableEq, Repr

/-- State of a `LocalTable` instance (src/core/LocalTable.ts): the private
fields `_data`, `_name`, `_metadata`, `_schema`. The constructor default for
`metadata` is `{ semanticTypes: {}, ...metadata }`, i.e. the record default. -/
structure LocalTable where
  data : List Row
  name : String
  metadata : TableMetadata := {}
  schema : Option TableSchema := none
deriving DecidableEq, Repr

/-- Models JavaScript truthiness of a `string | undefined` field: `undefined`
and the empty string are falsy. -/
def jsTruthyOptStr : Option String → Bool
  | none => false
  | some s => s != ""

/-- Embedding of the `columns` getter (src/core/LocalTable.ts lines 51-54):
the keys of the first data row, `[]` for an empty table. The getter never
consults metadata. -/
def LocalTable.columns (t : LocalTable) : List String :=
  match t.data with
  | [] => []
  | r :: _ => rowKeys r

/-- Bool membership for strings, modelling `Array.prototype.includes` and
`Set.prototype.has` (string elements compare by value in both). -/
def memB (x : String) (l : List String) : Bool := l.any (fun y => y == x)

/-- One iteration of the `inferMetadata` column loop (src/core/LocalTable.ts
lines 64-86), threading the mutable triple (table metadata, `columns` array,
`semanticTypes` object). In the source the `ColumnMetadata` object is pushed
onto `columns` before its `primaryKey` field is mutated; since it is the same
object reference, the stored element carries the final flag, so the embedding
appends the finished record. -/
def inferStep (t : LocalTable)
    (acc : TableMetadata × List ColumnMetadata × List (String × DataType))
    (columnName : String) :
    TableMetadata × List ColumnMetadata × List (String × DataType) :=
  let md := acc.1
  let cols := acc.2.1
  let sems := acc.2.2
  let columnData := t.data.map (fun row => rowGet row columnName)
  let cm0 := analyzeColumn columnData columnName
  let md1 :=
    if cm0.type == .time_column then
      if !jsTruthyOptStr md.timeColumn then { md with timeColumn := some columnName } else md
    else md
  let sems1 :=
    if cm0.type == .time_column then sems ++ [(columnName, DataType.time_column)]
    else if cm0.type == .numerical then sems ++ [(columnName, DataType.numerical)]
    else if cm0.type == .categorical then sems ++ [(columnName, DataType.categorical)]
    else sems
  let qualifies := cm0.uniqueValues == some t.data.length && !cm0.nullable
  let cm1 := if qualifies then { cm0 with primaryKey := true } else cm0
  let md2 :=
    if qualifies && !jsTruthyOptStr md1.primaryKey then { md1 with primaryKey := some columnName }
    else md1
  (md2, cols ++ [cm1], sems1)

/-- Embedding of `LocalTable.inferMetadata` (src/core/LocalTable.ts lines
56-100). Throwing `DataError` is modelled as `Except.error`; on success the
method returns `this`, modelled as the updated table state. -/
def LocalTable.inferMetadata (t : LocalTable) : Except String LocalTable :=
  if t.data.length = 0 then .error "Cannot infer metadata from empty table"
  else
    let acc := t.columns.foldl (inferStep t) (t.metadata, [], [])
    let mdOut : TableMetadata := { acc.1 with semanticTypes := acc.2.2, columns := some acc.2.1 }
    let schemaOut : TableSchema :=
      { name := t.name
        columns := acc.2.1
        relationships := []
        rowCount := t.data.length
        metadata := mdOut }
    .ok { t with metadata := mdOut, schema := some schemaOut }

/-- Embedding of `LocalTable.setPrimaryKey` (src/core/LocalTable.ts lines
107-113); `ValidationError` is modelled as `Except.error`. -/
def LocalTable.setPrimaryKey (t : LocalTable) (columnName : String) : Except String LocalTable :=
  if !memB columnName t.columns then
    .error ("Column " ++ columnName ++ " does not exist in table " ++ t.name)
  else .ok { t with metadata := { t.metadata with primaryKey := some columnName } }

/-- Models assignment `obj[key] = value` on a plain object used as a map:
replace in place when the key exists, append otherwise. -/
def setAssoc (m : List (String × DataType)) (k : String) (v : DataType) :
    List (String × DataType) :=
  if m.any (fun p => p.1 == k) then m.map (fun p => if p.1 == k then (k, v) else p)
  else m ++ [(k, v)]

/-- Embedding of `LocalTable.setTimeColumn` (src/core/LocalTable.ts lines
115-122). -/
def LocalTable.setTimeColumn (t : LocalTable) (columnName : String) : Except String LocalTable :=
  if !memB columnName t.columns then
    .error ("Column " ++ columnName ++ " does not exist in table " ++ t.name)
  else
    .ok { t with metadata :=
      { t.metadata with
          timeColumn := some columnName
          semanticTypes := setAssoc t.metadata.semanticTypes columnName .time_column } }

/-- The error `type` union of `ValidationError` in `src/core/types.ts`. -/
inductive VErrorType where
  | MISSING_PRIMARY_KEY
  | INVALID_LINK
  | TYPE_MISMATCH
  | DUPLICATE_LINK
  | CIRCULAR_REFERENCE
deriving DecidableEq, Repr

/-- The warning `type` union of `ValidationWarning` in `src/core/types.ts`. -/
inductive VWarnType where
  | NULLABLE_FOREIGN_KEY
  | LOW_CARDINALITY
  | HIGH_NULL_RATE
deriving DecidableEq, Repr

/-- The `ValidationError` record of `src/core/types.ts`. -/
structure VError where
  type : VErrorType
  message : String
  field : Option String := none
  table : Option String := none
deriving DecidableEq, Repr

/-- The `ValidationWarning` record of `src/core/types.ts`. -/
structure VWarning where
  type : VWarnType
  message : String
  field : Option String := none
  table : Option String := none
deriving DecidableEq, Repr

/-- The `ValidationResult` record of `src/core/types.ts`. -/
structure ValidationResult where
  valid : Bool
  errors : List VError
  warnings : List VWarning
deriving DecidableEq, Repr

/-- Models `(col.nullCount || 0) / this._data.length > 0.5` in IEEE-754
doubles: for a positive length below 2^52 the division compares to `0.5`
exactly as `2 * nullCount > length` does; for length `0` JavaScript yields
`NaN > 0.5 = false` when the numerator is `0` and `Infinity > 0.5 = true`
otherwise. -/
def nullRateHigh (nullCount len : Nat) : Bool :=
  if len = 0 then decide (nullCount ≠ 0) else decide (2 * nullCount > len)

/-- Embedding of `LocalTable.validate` (src/core/LocalTable.ts lines
124-155). `if (this._metadata.columns)` is an object truthiness test: it
passes exactly when the field is present (an empty array is truthy). -/
def LocalTable.validate (t : LocalTable) : ValidationResult :=
  let errors :=
    if !jsTruthyOptStr t.metadata.primaryKey then
      [{ type := .MISSING_PRIMARY_KEY
         message := "Table " ++ t.name ++ " is missing a primary key"
         table := some t.name : VError }]
    else []
  let warnings :=
    match t.metadata.columns with
    | none => []
    | some cols =>
        cols.filterMap (fun col =>
          if nullRateHigh (col.nullCount.getD 0) t.data.length then
            some { type := .HIGH_NULL_RATE
                   message := "Column " ++ col.name ++ " has a high rate of null values"
                   field := some col.name
                   table := some t.name : VWarning }
          else none)
  { valid := errors.isEmpty, errors := errors, warnings := warnings }

/-- State of a `LocalGraph` instance (src/core/LocalGraph.ts): the private
fields `_tables` (a `Map`, modelled as an association list in insertion
order with unique keys), `_links` and `_validated`. -/
structure GraphState where
  tables : List (String × LocalTable)
  links : List TableLink
  validated : Bool
deriving DecidableEq, Repr

/-- Models `Map.prototype.set`: overwrite in place when the key exists
(keeping insertion order), append otherwise. -/
def mapSet (m : List (String × LocalTable)) (k : String) (v : LocalTable) :
    List (String × LocalTable) :=
  if m.any (fun p => p.1 == k) then m.map (fun p => if p.1 == k then (k, v) else p)
  else m ++ [(k, v)]

/-- Embedding of the `LocalGraph` constructor (src/core/LocalGraph.ts lines
10-17): tables inserted by name, duplicate names resolved last-write-wins. -/
def LocalGraph.new (ts : List LocalTable) : GraphState :=
  { tables := ts.foldl (fun m t => mapSet m t.name t) []
    links := []
    validated := false }

/-- Models the `tableNames` getter: `Map` keys in insertion order. -/
def GraphState.tableNames (g : GraphState) : List String := g.tables.map (·.1)

/-- Models `this._tables.get(name)`. -/
def GraphState.getTable (g : GraphState) (n : String) : Option LocalTable :=
  (g.tables.find? (fun p => p.1 == n)).map (·.2)

/-- Models `this._tables.has(name)`. -/
def GraphState.hasTable (g : GraphState) (n : String) : Bool := (g.getTable n).isSome

/-- Embedding of `LocalGraph.link` (src/core/LocalGraph.ts lines 35-57).
A thrown `ValidationError` is modelled as `(some message, unchangedState)`;
success is `(none, newState)`. All four checks precede the push, exactly as
in the source. -/
def LocalGraph.link (g : GraphState) (srcTable fkey dstTable : String) :
    Option String × GraphState :=
  if !g.hasTable srcTable then
    (some ("Source table " ++ srcTable ++ " not found in graph"), g)
  else if !g.hasTable dstTable then
    (some ("Destination table " ++ dstTable ++ " not found in graph"), g)
  else
    let srcTableObj := (g.getTable srcTable).getD { data := [], name := "" }
    if !memB fkey srcTableObj.columns then
      (some ("Foreign key " ++ fkey ++ " not found in table " ++ srcTable), g)
    else if (g.links.find? (fun l =>
        l.srcTable == srcTable && l.fkey == fkey && l.dstTable == dstTable)).isSome then
      (some ("Link already exists: " ++ srcTable ++ "." ++ fkey ++ " -> " ++ dstTable), g)
    else
      (none,
       { g with
           links := g.links ++ [{ srcTable := srcTable, fkey := fkey,
                                  dstTable := dstTable, validated := false }]
           validated := false })

/-- Embedding of `LocalGraph.unlink` (src/core/LocalGraph.ts lines 59-68):
`findIndex` plus `splice(index, 1)` removes the first matching link. -/
def LocalGraph.unlink (g : GraphState) (srcTable fkey dstTable : String) :
    Option String × GraphState :=
  match g.links.findIdx? (fun l =>
      l.srcTable == srcTable && l.fkey == fkey && l.dstTable == dstTable) with
  | none => (some ("Link not found: " ++ srcTable ++ "." ++ fkey ++ " -> " ++ dstTable), g)
  | some i => (none, { g with links := g.links.eraseIdx i, validated := false })

/-- Models the `try { this.link(...) } catch {}` inside `inferLinks`: apply
the link operation, keep the old state when it throws. -/
def tryLink (g : GraphState) (srcTable fkey dstTable : String) : GraphState :=
  (LocalGraph.link g srcTable fkey dstTable).2

/-- Models `columnName.replace(/_id$|Id$/, '')`. Both alternatives are
anchored at the end, an `_id` suffix matches one position earlier than an
`Id` suffix, and no string carries both, so the replacement drops whichever
suffix is present. -/
def dropIdSuffix (c : String) : String :=
  if endsWithS c "_id" then ⟨c.data.take (c.data.length - 3)⟩
  else if endsWithS c "Id" then ⟨c.data.take (c.data.length - 2)⟩
  else c

/-- The pluralization match of `inferLinks` (src/core/LocalGraph.ts lines
80-86): case-insensitive exact, table name = base + "s", or base = table
name + "s". -/
def nameMatches (dstTableName possibleTableName : String) : Bool :=
  let tableBaseName := toLowerS dstTableName
  let columnBaseName := toLowerS possibleTableName
  tableBaseName == columnBaseName ||
    tableBaseName == ⟨columnBaseName.data ++ ['s']⟩ ||
    (⟨tableBaseName.data ++ ['s']⟩ : String) == columnBaseName

/-- The innermost loop body of `inferLinks`: for one source table, one
foreign-key-suffixed column and one candidate destination, attempt the link
when the names match and the destination currently has a (truthy) primary
key. Table lookups read the current state, whose `_tables` map the link
operation never changes. -/
def inferLinkStep (srcTableName columnName : String)
    (g : GraphState) (dstTableName : String) : GraphState :=
  if dstTableName == srcTableName then g
  else if nameMatches dstTableName (dropIdSuffix columnName) then
    match g.getTable dstTableName with
    | none => g
    | some dstTable =>
        if jsTruthyOptStr dstTable.metadata.primaryKey then
          tryLink g srcTableName columnName dstTableName
        else g
  else g

/-- The middle loop body of `inferLinks`: one column of one source table. -/
def inferColumnStep (tableNames : List String) (srcTableName : String)
    (g : GraphState) (columnName : String) : GraphState :=
  if endsWithS columnName "_id" || endsWithS columnName "Id" then
    tableNames.foldl (inferLinkStep srcTableName columnName) g
  else g

/-- Embedding of `LocalGraph.inferLinks` (src/core/LocalGraph.ts lines
70-98). `tableNames` is computed once up front; each candidate is attempted
through `link` with failures swallowed. -/
def LocalGraph.inferLinks (g : GraphState) : GraphState :=
  let tableNames := g.tableNames
  tableNames.foldl
    (fun g1 srcTableName =>
      match g1.getTable srcTableName with
      | none => g1
      | some srcTable =>
          srcTable.columns.foldl (inferColumnStep tableNames srcTableName) g1)
    g

/-- The mutable pair of sets of `hasCircularReference`: `visited` and
`recursionStack`, modelled as duplicate-free lists. -/
structure DfsState where
  visited : List String
  stack : List String
deriving DecidableEq, Repr

/-- Models `Set.prototype.add`. -/
def addOnce (x : String) (l : List String) : List String :=
  if memB x l then l else x :: l

/-- Models `Set.prototype.delete` on a duplicate-free list. -/
def removeOnce (x : String) : List String → List String
  | [] => []
  | y :: ys => if y = x then ys else y :: removeOnce x ys

mutual
/-- Embedding of the recursive closure `dfs` of
`LocalGraph.hasCircularReference` (src/core/LocalGraph.ts lines 150-163).
The source recurses natively; the embedding adds a fuel argument, returning
`none` on exhaustion. `dfsFuel_enough` below proves the fuel bound used by
`hasCircularReference` can never exhaust, so the embedding is total on the
states the source runs on. -/
def dfsVisit (links : List TableLink) : Nat → String → DfsState → Option (Bool × DfsState)
  | 0, _, _ => none
  | fuel + 1, node, st =>
    let st1 : DfsState := ⟨addOnce node st.visited, addOnce node st.stack⟩
    match dfsLoop links fuel (links.filter (fun l => l.srcTable == node)) st1 with
    | none => none
    | some (true, st2) => some (true, st2)
    | some (false, st2) => some (false, ⟨st2.visited, removeOnce node st2.stack⟩)
termination_by fuel _ _ => (fuel, 0)

/-- The `for (const link of outgoingLinks)` loop inside `dfs`: a back-edge to
a node on the recursion stack returns `true`; an unvisited target is visited
recursively; otherwise iteration continues. -/
def dfsLoop (links : List TableLink) : Nat → List TableLink → DfsState → Option (Bool × DfsState)
  | _, [], st => some (false, st)
  | fuel, l :: ls, st =>
    if memB l.dstTable st.visited then
      if memB l.dstTable st.stack then some (true, st)
      else dfsLoop links fuel ls st
    else
      match dfsVisit links fuel l.dstTable st with
      | none => none
      | some (true, st2) => some (true, st2)
      | some (false, st2) => dfsLoop links fuel ls st2
termination_by fuel ls _ => (fuel, ls.length + 1)
end

/-- The outer `for (const tableName of this._tables.keys())` loop of
`hasCircularReference` (src/core/LocalGraph.ts lines 165-169), threading the
shared `visited` set across roots. -/
def dfsForest (links : List TableLink) : Nat → List String → DfsState → Option (Bool × DfsState)
  | _, [], st => some (false, st)
  | fuel, n :: ns, st =>
    if memB n st.visited then dfsForest links fuel ns st
    else
      match dfsVisit links fuel n st with
      | none => none
      | some (true, st2) => some (true, st2)
      | some (false, st2) => dfsForest links fuel ns st2

/-- The fuel bound for the DFS: one more than the number of node occurrences
that can ever be visited (table names and link targets). -/
def dfsFuel (g : GraphState) : Nat :=
  (g.tableNames ++ g.links.map (·.dstTable)).length + 1

/-- Embedding of `LocalGraph.hasCircularReference` (src/core/LocalGraph.ts
lines 146-171). The `none` fallback is unreachable (`dfsFuel_enough`). -/
def hasCircularReference (g : GraphState) : Bool :=
  match dfsForest g.links (dfsFuel g) g.tableNames ⟨[], []⟩ with
  | some (b, _) => b
  | none => false

/-- A table state used only to model the non-null assertion
`this._tables.get(...)!` in `LocalGraph.validate`; on the states the source
runs on (every link endpoint present in the table map) it is never read. -/
def phantomTable : LocalTable := { data := [], name := "" }

/-- Embedding of `LocalGraph.validate` (src/core/LocalGraph.ts lines
100-144): per-table results pooled in table order, then per-link
`INVALID_LINK` errors and `NULLABLE_FOREIGN_KEY` warnings in link order, then
the single aggregate `CIRCULAR_REFERENCE` error; `_validated` caches
`errors.length === 0`. Returns the result and the updated state. -/
def LocalGraph.validate (g : GraphState) : ValidationResult × GraphState :=
  let tableParts := g.tables.map (fun p => p.2.validate)
  let tableErrors := (tableParts.map (·.errors)).flatten
  let tableWarnings := (tableParts.map (·.warnings)).flatten
  let linkErrors := g.links.filterMap (fun l =>
    let dstTable := (g.getTable l.dstTable).getD phantomTable
    if !jsTruthyOptStr dstTable.metadata.primaryKey then
      some { type := .INVALID_LINK
             message := "Destination table " ++ l.dstTable ++ " has no primary key"
             table := some l.dstTable : VError }
    else none)
  let linkWarnings := g.links.filterMap (fun l =>
    let srcTable := (g.getTable l.srcTable).getD phantomTable
    match srcTable.schema with
    | none => none
    | some sch =>
        match sch.columns.find? (fun c => c.name == l.fkey) with
        | some fkColumn =>
            if fkColumn.nullable then
              some { type := .NULLABLE_FOREIGN_KEY
                     message := "Foreign key " ++ l.fkey ++ " in table " ++ l.srcTable ++
                       " is nullable"
                     field := some l.fkey
                     table := some l.srcTable : VWarning }
            else none
        | none => none)
  let circErrors :=
    if hasCircularReference g then
      [{ type := .CIRCULAR_REFERENCE
         message := "Graph contains circular references" : VError }]
    else []
  let errors := tableErrors ++ linkErrors ++ circErrors
  ({ valid := errors.isEmpty, errors := errors, warnings := tableWarnings ++ linkWarnings },
   { g with validated := errors.isEmpty })

/-- State of a `PQLBuilder` instance (src/index.ts lines 11-17). -/
structure PQLBuilder where
  predictTarget : Option String := none
  forEntities : List String := []
  whereClauses : List String := []
  groupByFields : List String := []
  orderByFields : List String := []
  limitCount : Option Int := none
deriving DecidableEq, Repr

/-- Embedding of `PQLBuilder.predict`. -/
def PQLBuilder.predict (b : PQLBuilder) (target : String) : PQLBuilder :=
  { b with predictTarget := some target }

/-- Embedding of `PQLBuilder.for` (`for` is a Lean keyword, hence the
underscore): `this.forEntities.push(...entities)`. -/
def PQLBuilder.for_ (b : PQLBuilder) (entities : List String) : PQLBuilder :=
  { b with forEntities := b.forEntities ++ entities }

/-- Embedding of `PQLBuilder.where` (`where` is a Lean keyword, hence the
underscore): `this.whereClauses.push(condition)`. -/
def PQLBuilder.where_ (b : PQLBuilder) (condition : String) : PQLBuilder :=
  { b with whereClauses := b.whereClauses ++ [condition] }

/-- Embedding of `PQLBuilder.groupBy`: `this.groupByFields.push(...fields)`. -/
def PQLBuilder.groupBy (b : PQLBuilder) (fields : List String) : PQLBuilder :=
  { b with groupByFields := b.groupByFields ++ fields }

/-- Embedding of `PQLBuilder.orderBy`: `this.orderByFields.push(...fields)`. -/
def PQLBuilder.orderBy (b : PQLBuilder) (fields : List String) : PQLBuilder :=
  { b with orderByFields := b.orderByFields ++ fields }

/-- Embedding of `PQLBuilder.limit`. The limit is an integer in every
analysed use; `toString` on `Int` renders exactly as JavaScript does. -/
def PQLBuilder.limit (b : PQLBuilder) (n : Int) : PQLBuilder :=
  { b with limitCount := some n }

/-- Embedding of `PQLBuilder.build` (src/index.ts lines 49-70).
`if (!this.predictTarget)` is a truthiness test (unset or empty string);
`if (this.forEntities.length)` tests for a non-empty array;
`if (this.limitCount != null)` is a loose null test, so a limit of `0`
still renders. -/
def PQLBuilder.build (b : PQLBuilder) : Except String String :=
  if !jsTruthyOptStr b.predictTarget then .error "PREDICT target is required"
  else
    let q0 := "PREDICT " ++ b.predictTarget.getD ""
    let q1 := if b.forEntities.length ≠ 0 then
        q0 ++ " FOR " ++ String.intercalate ", " b.forEntities else q0
    let q2 := if b.whereClauses.length ≠ 0 then
        q1 ++ " WHERE " ++ String.intercalate " AND " b.whereClauses else q1
    let q3 := if b.groupByFields.length ≠ 0 then
        q2 ++ " GROUP BY " ++ String.intercalate ", " b.groupByFields else q2
    let q4 := if b.orderByFields.length ≠ 0 then
        q3 ++ " ORDER BY " ++ String.intercalate ", " b.orderByFields else q3
    let q5 := match b.limitCount with
      | some n => q4 ++ " LIMIT " ++ toString n
      | none => q4
    .ok q5

/-- Graph states reachable from a freshly constructed graph by any sequence
of `link`, `unlink` and `inferLinks` calls (failed calls leave the state
unchanged and are covered by the same constructors). -/
inductive Reachable : GraphState → Prop where
  | init (ts : List LocalTable) : Reachable (LocalGraph.new ts)
  | link {g : GraphState} (srcTable fkey dstTable : String) :
      Reachable g → Reachable (LocalGraph.link g srcTable fkey dstTable).2
  | unlink {g : GraphState} (srcTable fkey dstTable : String) :
      Reachable g → Reachable (LocalGraph.unlink g srcTable fkey dstTable).2
  | inferLinks {g : GraphState} :
      Reachable g → Reachable (LocalGraph.inferLinks g)

/-- Every link's endpoints name tables of the graph. -/
def WFLinks (g : GraphState) : Prop :=
  ∀ l ∈ g.links, g.hasTable l.srcTable = true ∧ g.hasTable l.dstTable = true

/-- No two links share the (srcTable, fkey, dstTable) triple. -/
def DistinctLinks (g : GraphState) : Prop :=
  g.links.Pairwise (fun a b =>
    ¬(a.srcTable = b.srcTable ∧ a.fkey = b.fkey ∧ a.dstTable = b.dstTable))

/-- Every link's foreign-key column is among the raw columns of its source
table (established by the `link` checks, preserved because no graph
operation mutates table data). -/
def LinkFkeyWF (g : GraphState) : Prop :=
  ∀ l ∈ g.links, ∃ tbl, g.getTable l.srcTable = some tbl ∧ memB l.fkey tbl.columns = true

/-- The bundle of graph invariants maintained by every reachable state. -/
def GInv (g : GraphState) : Prop := WFLinks g ∧ DistinctLinks g ∧ LinkFkeyWF g

/-- The directed edge relation of the link graph: an edge from `a` to `b`
for every link with source `a` and destination `b`. -/
def Edge (links : List TableLink) (a b : String) : Prop :=
  ∃ l, l ∈ links ∧ l.srcTable = a ∧ l.dstTable = b

/-- The link digraph contains a directed cycle: some node reaches itself by
a nonempty edge path. -/
def HasCycle (links : List TableLink) : Prop :=
  ∃ n, Relation.TransGen (Edge links) n n

/-- A node is finished by the DFS: visited but no longer on the recursion
stack ("black" in the classical colouring). -/
def DfsDone (st : DfsState) (x : String) : Prop := x ∈ st.visited ∧ x ∉ st.stack

/-- The recursion stack only ever holds visited nodes. -/
def StackOk (st : DfsState) : Prop := ∀ x ∈ st.stack, x ∈ st.visited

/-- A ranking certificate for the finished region: every edge out of a
finished node stays in the finished region and strictly decreases the rank,
which forbids cycles through finished nodes. -/
def GoodRank (links : List TableLink) (st : DfsState) (f : String → Nat) : Prop :=
  ∀ x, DfsDone st x → ∀ l ∈ links, l.srcTable = x →
    (DfsDone st l.dstTable ∧ f l.dstTable < f x)

/-- The completeness invariant of the DFS: some ranking certifies the
finished region acyclic and edge-closed. -/
def DfsInv (links : List TableLink) (st : DfsState) : Prop := ∃ f, GoodRank links st f

/-- The recursion stack lists a path: each entry has an edge to the entry
above it (the list head is the top of the stack). -/
def StackChain (links : List TableLink) (stack : List String) : Prop :=
  stack.Chain' (fun a b => Edge links b a)

/-- The number of potential DFS start points not yet visited; the fuel
measure of the embedding. -/
def remCount (U visited : List String) : Nat :=
  (U.filter (fun x => decide (x ∉ visited))).length

/-- Rendering of a built query following the specification's wording
(clauses in fixed order, included only when populated); the refinement-side
counterpart of `PQLBuilder.build` for the query-builder claim. -/
def buildSpecString (b : PQLBuilder) (target : String) : String :=
  "PREDICT " ++ target
    ++ (if b.forEntities ≠ [] then " FOR " ++ String.intercalate ", " b.forEntities else "")
    ++ (if b.whereClauses ≠ [] then " WHERE " ++ String.intercalate " AND " b.whereClauses else "")
    ++ (if b.groupByFields ≠ [] then " GROUP BY " ++ String.intercalate ", " b.groupByFields else "")
    ++ (if b.orderByFields ≠ [] then " ORDER BY " ++ String.intercalate ", " b.orderByFields else "")
    ++ (match b.limitCount with
        | some n => " LIMIT " ++ toString n
        | none => "")

/-- The values of one column across all rows, in row order (absent keys give
`undefined`), as gathered by the `inferMetadata` loop. -/
def columnValues (t : LocalTable) (c : String) : List JSValue :=
  t.data.map (fun r => rowGet r c)

/-- The primary-key qualification of the specification: the distinct
non-null value count of the column equals the row count and the column has
no nulls (is not nullable). -/
def QualifiesPK (t : LocalTable) (c : String) : Prop :=
  ((columnValues t c).filter (·.isPresent)).dedup.length = t.data.length ∧
    ((columnValues t c).filter (·.isPresent)).length = (columnValues t c).length

instance (t : LocalTable) (c : String) : Decidable (QualifiesPK t c) := by
  unfold QualifiesPK; infer_instance

/-- The `ColumnMetadata` record produced for one column by the
`inferMetadata` loop, including the primary-key-candidate flag. -/
def colMetaFinal (t : LocalTable) (c : String) : ColumnMetadata :=
  let cm0 := analyzeColumn (columnValues t c) c
  if cm0.uniqueValues == some t.data.length && !cm0.nullable then
    { cm0 with primaryKey := true }
  else cm0

/-- Concrete two-table inputs used by the witnesses: table `A` with a column
`b`, table `B` with a column `a`. -/
def tblA : LocalTable := { data := [[("b", .num 1)]], name := "A" }

def tblB : LocalTable := { data := [[("a", .num 1)]], name := "B" }

/-- The graph over `tblA`, `tblB` with the single link `A.b -> B`. -/
def graphAB : GraphState := (LocalGraph.link (LocalGraph.new [tblA, tblB]) "A" "b" "B").2

/-- The graph with links `A.b -> B` and `B.a -> A`: a two-node cycle. -/
def graphCycle : GraphState := (LocalGraph.link graphAB "B" "a" "A").2

/-- A declared column-metadata record naming a column `b` that the raw rows
of `tblDeclared` do not contain. -/
def cmDeclaredB : ColumnMetadata :=
  { name := "b", type := .numerical, nullable := false, primaryKey := false,
    foreignKeys := [], uniqueValues := some 1, nullCount := some 0 }

/-- A table whose raw rows have the single column `a` while its declared
metadata lists the column `b`. -/
def tblDeclared : LocalTable :=
  { data := [[("a", .num 1)]], name := "t", metadata := { columns := some [cmDeclaredB] } }

/-- A one-row table whose first column is named by the empty string; both
columns qualify as primary-key candidates. -/
def tblEmptyName : LocalTable := { data := [[("", .num 1), ("a", .num 2)]], name := "p" }

/-- A two-row table with two qualifying primary-key candidate columns. -/
def tblTwoKeys : LocalTable :=
  { data := [[("a", .num 1), ("b", .num 10)], [("a", .num 2), ("b", .num 20)]], name := "w" }

/-! ## Helper lemmas -/

theorem memB_iff (x : String) (l : List String) : memB x l = true ↔ x ∈ l := by
  simp [memB, List.any_eq_true, beq_iff_eq]

theorem memB_eq_false_iff (x : String) (l : List String) : memB x l = false ↔ x ∉ l := by
  rw [← Bool.not_eq_true, not_iff_not]; exact memB_iff x l

/-! ## Claim theorems -/

/-- C7: each `groupBy` and `orderBy` call appends its fields to the stored
list, exactly as `for` and `where` append; no builder method replaces a
previously accumulated list. (Amended from the claim: the source pushes in
all four methods, it does not replace in `groupBy`/`orderBy`.) -/
theorem C7_all_builder_accumulators_append (b : PQLBuilder) (xs : List String) (c : String) :
    (b.groupBy xs).groupByFields = b.groupByFields ++ xs ∧
    (b.orderBy xs).orderByFields = b.orderByFields ++ xs ∧
    (b.for_ xs).forEntities = b.forEntities ++ xs ∧
    (b.where_ c).whereClauses = b.whereClauses ++ [c] :=
  ⟨rfl, rfl, rfl, rfl⟩

/-- C7 counterexample: after `groupBy("a")` then `groupBy("b")` the stored
group-by fields are `["a", "b"]`, not the replacement `["b"]` the claim
predicts (and likewise for `orderBy`). -/
theorem C7_counterexample :
    ((({} : PQLBuilder).groupBy ["a"]).groupBy ["b"]).groupByFields = ["a", "b"] ∧
    ((({} : PQLBuilder).orderBy ["a"]).orderBy ["b"]).orderByFields = ["a", "b"] ∧
    (["a", "b"] : List String) ≠ ["b"] :=
  ⟨rfl, rfl, by decide⟩

/-- C10: `link` is atomic on failure: whenever it reports an error, the
entire graph state (link list and cached validity flag included) is exactly
the state before the call; all four validation checks precede the mutation. -/
theorem C10_link_error_leaves_state (g : GraphState) (s f d e : String)
    (h : (LocalGraph.link g s f d).1 = some e) : (LocalGraph.link g s f d).2 = g := by
  have hc : (LocalGraph.link g s f d).2 = g ∨ (LocalGraph.link g s f d).1 = none := by
    unfold LocalGraph.link
    split_ifs <;>
      cases hmB : memB f ((GraphState.getTable g s).getD { data := [], name := "" }).columns <;>
        simp [hmB]
  rcases hc with hc | hc
  · exact hc
  · rw [hc] at h
    exact Option.noConfusion h

/-- C10 witness: linking from an unknown source table on the concrete graph
`graphAB` fails and leaves the graph untouched. -/
theorem C10_witness :
    (LocalGraph.link graphAB "missing" "x" "y").1 =
      some "Source table missing not found in graph" ∧
    (LocalGraph.link graphAB "missing" "x" "y").2 = graphAB :=
  ⟨by decide, C10_link_error_leaves_state graphAB "missing" "x" "y"
      "Source table missing not found in graph" (by decide)⟩

/-- C6: `inferMetadata` fails (with `DataError`) exactly on a table with
zero rows; on any table with at least one row it succeeds and returns the
table itself (same rows, same name, updated metadata). -/
theorem C6_inferMetadata_error_iff_empty (t : LocalTable) :
    ((∃ e, t.inferMetadata = Except.error e) ↔ t.data = []) ∧
    (t.data ≠ [] → ∃ t2, t.inferMetadata = Except.ok t2 ∧ t2.data = t.data ∧ t2.name = t.name) := by
  constructor
  · constructor
    · rintro ⟨e, he⟩
      by_cases h : t.data.length = 0
      · exact List.length_eq_zero.mp h
      · simp only [LocalTable.inferMetadata, h, if_false] at he
        exact Except.noConfusion he
    · intro h
      refine ⟨"Cannot infer metadata from empty table", ?_⟩
      simp [LocalTable.inferMetadata, h]
  · intro h
    have hl : ¬ t.data.length = 0 := by
      simpa [List.length_eq_zero] using h
    simp only [LocalTable.inferMetadata, hl, if_false]
    exact ⟨_, rfl, rfl, rfl⟩

/-- C6 witness: the empty table fails, the concrete one-row table `tblA`
succeeds keeping its rows and name. -/
theorem C6_witness :
    (∃ e, (LocalTable.inferMetadata { data := [], name := "x" }) = Except.error e) ∧
    (∃ t2, tblA.inferMetadata = Except.ok t2 ∧ t2.data = tblA.data ∧ t2.name = tblA.name) :=
  ⟨(C6_inferMetadata_error_iff_empty { data := [], name := "x" }).1.mpr rfl,
   (C6_inferMetadata_error_iff_empty tblA).2 (by decide)⟩

/-- C2: `inferColumnType` first filters out null/absent values and then
applies the checks in fixed order with the first match winning: empty
present subset gives `text`; else all-dates gives `time_column`; else
all-numeric gives `numerical`; else a distinct ratio strictly below one half
gives `categorical`; else `text`. Stated as a complete case analysis whose
guards make the priority explicit (each later branch negates the earlier
guards). Date and number parseability are the explicit models `jsDateCheck`
and `jsNumberCheck` of the host `Date.parse` and `Number` coercions. -/
theorem C2_inferColumnType_priority (values : List JSValue) :
    (values.filter (·.isPresent) = [] ∧ inferColumnType values = .text) ∨
    (values.filter (·.isPresent) ≠ [] ∧
      (∀ v ∈ values.filter (·.isPresent), jsDateCheck v = true) ∧
      inferColumnType values = .time_column) ∨
    (values.filter (·.isPresent) ≠ [] ∧
      (∃ v ∈ values.filter (·.isPresent), jsDateCheck v = false) ∧
      (∀ v ∈ values.filter (·.isPresent), jsNumberCheck v = true) ∧
      inferColumnType values = .numerical) ∨
    (values.filter (·.isPresent) ≠ [] ∧
      (∃ v ∈ values.filter (·.isPresent), jsDateCheck v = false) ∧
      (∃ v ∈ values.filter (·.isPresent), jsNumberCheck v = false) ∧
      2 * (values.filter (·.isPresent)).dedup.length < (values.filter (·.isPresent)).length ∧
      inferColumnType values = .categorical) ∨
    (values.filter (·.isPresent) ≠ [] ∧
      (∃ v ∈ values.filter (·.isPresent), jsDateCheck v = false) ∧
      (∃ v ∈ values.filter (·.isPresent), jsNumberCheck v = false) ∧
      ¬ 2 * (values.filter (·.isPresent)).dedup.length < (values.filter (·.isPresent)).length ∧
      inferColumnType values = .text) := by
  by_cases h0 : (values.filter (·.isPresent)).isEmpty = true
  · exact Or.inl ⟨List.isEmpty_iff.mp h0, by simp [inferColumnType, h0]⟩
  · have hne : values.filter (·.isPresent) ≠ [] := by
      simpa [List.isEmpty_iff] using h0
    cases hd : (values.filter (·.isPresent)).all jsDateCheck with
    | true =>
        refine Or.inr (Or.inl ⟨hne, fun v hv => List.all_eq_true.mp hd v hv, ?_⟩)
        simp [inferColumnType, h0, hd]
    | false =>
        have hdx : ∃ v ∈ values.filter (·.isPresent), jsDateCheck v = false := by
          simpa using List.all_eq_false.mp hd
        cases hn : (values.filter (·.isPresent)).all jsNumberCheck with
        | true =>
            refine Or.inr (Or.inr (Or.inl ⟨hne, hdx, List.all_eq_true.mp hn, ?_⟩))
            simp [inferColumnType, h0, hd, hn]
        | false =>
            have hnx : ∃ v ∈ values.filter (·.isPresent), jsNumberCheck v = false := by
              simpa using List.all_eq_false.mp hn
            by_cases hc :
                2 * (values.filter (·.isPresent)).dedup.length <
                  (values.filter (·.isPresent)).length
            · refine Or.inr (Or.inr (Or.inr (Or.inl ⟨hne, hdx, hnx, hc, ?_⟩)))
              simp [inferColumnType, h0, hd, hn, hc]
            · refine Or.inr (Or.inr (Or.inr (Or.inr ⟨hne, hdx, hnx, hc, ?_⟩)))
              simp [inferColumnType, h0, hd, hn, hc]

/-- C8 (amended): a nonempty column of present values that all pass the
numeric check, at least one of which fails the date check, is classified
`numerical` regardless of its cardinality (the numerical check runs before
the categorical one); in particular `["1", "2", "1", "2"]` infers as
`numerical`, never `categorical`. A column of numeric strings that all also
parse as dates is instead classified `time_column` (see the
counterexample). -/
theorem C8_numerical_before_categorical :
    (∀ values : List JSValue,
      values.filter (·.isPresent) ≠ [] →
      (∃ v ∈ values.filter (·.isPresent), jsDateCheck v = false) →
      (∀ v ∈ values.filter (·.isPresent), jsNumberCheck v = true) →
      inferColumnType values = .numerical) ∧
    inferColumnType [.str "1", .str "2", .str "1", .str "2"] = .numerical ∧
    DataType.numerical ≠ DataType.categorical := by
  refine ⟨?_, rfl, by decide⟩
  intro values hne hdx hn
  have h0 : ¬ (values.filter (·.isPresent)).isEmpty = true := by
    simpa [List.isEmpty_iff] using hne
  have hd : (values.filter (·.isPresent)).all jsDateCheck = false :=
    List.all_eq_false.mpr (by simpa using hdx)
  have hna : (values.filter (·.isPresent)).all jsNumberCheck = true := List.all_eq_true.mpr hn
  simp [inferColumnType, h0, hd, hna]

/-- C8 counterexample: `["2024", "2024", "2024"]` is a low-cardinality
column of numeric strings, yet it is classified `time_column`, not
`numerical`: every value also parses as a calendar date (the year-only ISO
form), and the temporal check runs before the numerical one. -/
theorem C8_counterexample :
    isJSNumericString "2024" = true ∧
    inferColumnType [.str "2024", .str "2024", .str "2024"] = .time_column ∧
    DataType.time_column ≠ DataType.numerical :=
  ⟨by decide, by decide, by decide⟩

/-- C8 witness: the general priority statement applied at the concrete
column `["1", "2", "1", "2"]`. -/
theorem C8_witness :
    inferColumnType [.str "1", .str "2", .str "1", .str "2"] = .numerical :=
  C8_numerical_before_categorical.1 [.str "1", .str "2", .str "1", .str "2"]
    (by decide) ⟨.str "1", by decide, by decide⟩ (by decide)

/-- C3 (amended): `build` fails with `ValidationError` exactly when the
stored predict target is absent or the empty string (`predict` never
called, or last called with `""`, which JavaScript truthiness treats as
unset); for any other target it returns exactly the fixed-order rendering
`buildSpecString` of the populated clauses, and in particular the concrete
chain `predict("COUNT(orders.order_id)").for("user_id").build()` yields the
literal `"PREDICT COUNT(orders.order_id) FOR user_id"`. -/
theorem C3_build_renders_clauses (b : PQLBuilder) :
    ((∃ e, b.build = Except.error e) ↔
      (b.predictTarget = none ∨ b.predictTarget = some "")) ∧
    (∀ t, b.predictTarget = some t → t ≠ "" → b.build = Except.ok (buildSpecString b t)) ∧
    ((((({} : PQLBuilder).predict "COUNT(orders.order_id)").for_ ["user_id"]).build) =
      Except.ok "PREDICT COUNT(orders.order_id) FOR user_id") := by
  refine ⟨⟨?_, ?_⟩, ?_, by rfl⟩
  · rintro ⟨e, he⟩
    cases hp : b.predictTarget with
    | none => exact Or.inl rfl
    | some s =>
        by_cases hs : s = ""
        · exact Or.inr (congrArg some hs)
        · exfalso
          simp [PQLBuilder.build, hp, jsTruthyOptStr, hs] at he
  · intro h
    refine ⟨"PREDICT target is required", ?_⟩
    rcases h with h | h <;> simp [PQLBuilder.build, h, jsTruthyOptStr]
  · intro t ht hne
    have htr : (t != "") = true := by simpa using hne
    unfold PQLBuilder.build buildSpecString
    rw [ht]
    simp only [jsTruthyOptStr, htr, Bool.not_true, Bool.false_eq_true, if_false, Option.getD_some]
    cases hf : b.forEntities <;>
      cases hw : b.whereClauses <;>
        cases hg : b.groupByFields <;>
          cases ho : b.orderByFields <;>
            cases hl : b.limitCount <;>
              simp [String.append_assoc, String.append_empty, String.empty_append]

/-- C3 counterexample: `predict("")` has been called, yet `build()` still
fails, because the source tests `!this.predictTarget`, which is true for the
empty string; this falsifies the claim that failure happens exactly when
`predict` was never called. -/
theorem C3_counterexample :
    (({} : PQLBuilder).predict "").predictTarget = some "" ∧
    (∃ e, (({} : PQLBuilder).predict "").build = Except.error e) :=
  ⟨rfl, ⟨"PREDICT target is required", by rfl⟩⟩

/-- C3 witness: the amended theorem applied at the concrete builder of the
claim, discharging the nonempty-target hypothesis. -/
theorem C3_witness :
    (((({} : PQLBuilder).predict "COUNT(orders.order_id)").for_ ["user_id"]).build) =
      Except.ok (buildSpecString ((({} : PQLBuilder).predict "COUNT(orders.order_id)").for_
        ["user_id"]) "COUNT(orders.order_id)") :=
  (C3_build_renders_clauses ((({} : PQLBuilder).predict "COUNT(orders.order_id)").for_
    ["user_id"])).2.1 "COUNT(orders.order_id)" rfl (by decide)

/-! ## Lemmas about the inferMetadata fold -/

theorem qualifies_iff (t : LocalTable) (c : String) :
    ((analyzeColumn (columnValues t c) c).uniqueValues == some t.data.length &&
      !(analyzeColumn (columnValues t c) c).nullable) = true ↔ QualifiesPK t c := by
  unfold analyzeColumn QualifiesPK
  simp only [Bool.and_eq_true, beq_iff_eq, Option.some.injEq, bne, Bool.not_not, columnValues]
  constructor
  · rintro ⟨h1, h2⟩
    exact ⟨h1, h2.symm⟩
  · rintro ⟨h1, h2⟩
    exact ⟨h1, h2.symm⟩

theorem inferStep_cols (t : LocalTable)
    (acc : TableMetadata × List ColumnMetadata × List (String × DataType)) (c : String) :
    (inferStep t acc c).2.1 = acc.2.1 ++ [colMetaFinal t c] := rfl

theorem inferStep_pk_of_truthy (t : LocalTable)
    (acc : TableMetadata × List ColumnMetadata × List (String × DataType)) (c : String)
    (h : jsTruthyOptStr acc.1.primaryKey = true) :
    (inferStep t acc c).1.primaryKey = acc.1.primaryKey := by
  simp only [inferStep]
  split_ifs <;> simp_all

theorem inferStep_pk_of_qual (t : LocalTable)
    (acc : TableMetadata × List ColumnMetadata × List (String × DataType)) (c : String)
    (hq : QualifiesPK t c) (hpk : acc.1.primaryKey = none) :
    (inferStep t acc c).1.primaryKey = some c := by
  have hb := (qualifies_iff t c).mpr hq
  simp only [inferStep]
  split_ifs <;> simp_all [columnValues, jsTruthyOptStr]

theorem inferStep_pk_of_not_qual (t : LocalTable)
    (acc : TableMetadata × List ColumnMetadata × List (String × DataType)) (c : String)
    (hq : ¬ QualifiesPK t c) (hpk : acc.1.primaryKey = none) :
    (inferStep t acc c).1.primaryKey = none := by
  have hb : ((analyzeColumn (columnValues t c) c).uniqueValues == some t.data.length &&
      !(analyzeColumn (columnValues t c) c).nullable) = false := by
    rw [← Bool.not_eq_true]
    exact fun hcon => hq ((qualifies_iff t c).mp hcon)
  simp only [inferStep]
  split_ifs <;> simp_all [columnValues]

theorem inferFold_cols (t : LocalTable) (cs : List String)
    (acc : TableMetadata × List ColumnMetadata × List (String × DataType)) :
    (cs.foldl (inferStep t) acc).2.1 = acc.2.1 ++ cs.map (colMetaFinal t) := by
  induction cs generalizing acc with
  | nil => simp
  | cons c rest ih =>
      rw [List.foldl_cons, ih, inferStep_cols]
      simp

theorem inferFold_pk_stable (t : LocalTable) (cs : List String)
    (acc : TableMetadata × List ColumnMetadata × List (String × DataType))
    (h : jsTruthyOptStr acc.1.primaryKey = true) :
    (cs.foldl (inferStep t) acc).1.primaryKey = acc.1.primaryKey := by
  induction cs generalizing acc with
  | nil => rfl
  | cons c rest ih =>
      rw [List.foldl_cons, ih]
      · exact inferStep_pk_of_truthy t acc c h
      · rw [inferStep_pk_of_truthy t acc c h]
        exact h

theorem inferFold_pk (t : LocalTable) (cs : List String)
    (acc : TableMetadata × List ColumnMetadata × List (String × DataType))
    (hemp : "" ∉ cs) (hpk : acc.1.primaryKey = none) :
    (cs.foldl (inferStep t) acc).1.primaryKey =
      cs.find? (fun c => decide (QualifiesPK t c)) := by
  induction cs generalizing acc with
  | nil => simpa using hpk
  | cons c rest ih =>
      have hcne : c ≠ "" := fun hcon => hemp (by simp [hcon])
      have hrest : "" ∉ rest := fun hcon => hemp (List.mem_cons_of_mem c hcon)
      by_cases hq : QualifiesPK t c
      · have h1 : (inferStep t acc c).1.primaryKey = some c :=
          inferStep_pk_of_qual t acc c hq hpk
        rw [List.foldl_cons, inferFold_pk_stable t rest _ (by simp [h1, jsTruthyOptStr, hcne]),
          h1, List.find?_cons_of_pos _ (by simpa using hq)]
      · have h1 : (inferStep t acc c).1.primaryKey = none :=
          inferStep_pk_of_not_qual t acc c hq hpk
        rw [List.foldl_cons, ih _ hrest h1, List.find?_cons_of_neg _ (by simpa using hq)]

/-- C4 (amended): on a non-empty table with no primary key previously set
and no column named by the empty string, `inferMetadata` marks a column as
primary-key candidate (`primaryKey = true` in its `ColumnMetadata`) exactly
when its distinct non-null value count equals the row count and it is not
nullable; every qualifying column carries the flag, and the table's recorded
`primaryKey` is the first qualifying column in column-declaration order.
(The empty-name proviso is forced by the source's JavaScript truthiness
test; see the counterexample.) -/
theorem C4_primary_key_first_wins (t : LocalTable)
    (hne : t.data ≠ []) (hpk : t.metadata.primaryKey = none) (hname : "" ∉ t.columns) :
    ∃ t2, t.inferMetadata = Except.ok t2 ∧
      t2.metadata.columns = some (t.columns.map (colMetaFinal t)) ∧
      (∀ c ∈ t.columns, ((colMetaFinal t c).primaryKey = true ↔ QualifiesPK t c)) ∧
      t2.metadata.primaryKey = t.columns.find? (fun c => decide (QualifiesPK t c)) := by
  have hl : ¬ t.data.length = 0 := by simpa [List.length_eq_zero] using hne
  simp only [LocalTable.inferMetadata, hl, if_false]
  refine ⟨_, rfl, ?_, ?_, ?_⟩
  · have hcols := inferFold_cols t t.columns (t.metadata, [], [])
    simpa using congrArg some hcols
  · intro c hc
    unfold colMetaFinal
    cases hb : ((analyzeColumn (columnValues t c) c).uniqueValues == some t.data.length &&
        !(analyzeColumn (columnValues t c) c).nullable) with
    | true =>
        simp only [hb, if_true]
        exact iff_of_true (by simp) ((qualifies_iff t c).mp hb)
    | false =>
        simp only [hb, if_false]
        refine iff_of_false ?_ ?_
        · simp [analyzeColumn]
        · intro hcon
          rw [(qualifies_iff t c).mpr hcon] at hb
          exact Bool.noConfusion hb
  · exact inferFold_pk t t.columns (t.metadata, [], []) hname hpk

/-- C4 counterexample: in a table whose first column is named by the empty
string, both columns qualify, yet the recorded primary key is the second
column `"a"`, not the first qualifying column `""`: the source's
`if (!this._metadata.primaryKey)` treats a previously recorded empty-string
name as still unset, so the next qualifier overwrites it. -/
theorem C4_counterexample :
    (tblEmptyName.inferMetadata.toOption.map (fun t2 => t2.metadata.primaryKey)) =
      some (some "a") ∧
    (tblEmptyName.inferMetadata.toOption.map (fun t2 =>
      (t2.metadata.columns.getD []).map (fun c => (c.name, c.primaryKey)))) =
      some [("", true), ("a", true)] :=
  ⟨by decide, by decide⟩

/-- C4 witness: the amended theorem applied at the concrete two-column table
`tblTwoKeys`, whose columns `a` and `b` both qualify: the first one wins. -/
theorem C4_witness :
    ∃ t2, tblTwoKeys.inferMetadata = Except.ok t2 ∧ t2.metadata.primaryKey = some "a" := by
  obtain ⟨t2, h1, _, _, h4⟩ := C4_primary_key_first_wins tblTwoKeys (by decide) rfl (by decide)
  refine ⟨t2, h1, ?_⟩
  rw [h4]
  decide

/-- C9 (amended): the column-existence precondition of `setPrimaryKey`,
`setTimeColumn` and the foreign-key check of `Graph.link` is always made
against the raw key set of the table's first data row (the `columns`
getter), regardless of whether metadata has been computed or declared; each
operation fails with `ValidationError` exactly when the named column is
absent from that raw key set (for `link`, once both table names resolve,
failure happens exactly when the key is absent or the triple already
exists). -/
theorem C9_checks_use_first_row_keys :
    (∀ (t : LocalTable) (c : String),
      (∃ e, t.setPrimaryKey c = Except.error e) ↔ c ∉ t.columns) ∧
    (∀ (t : LocalTable) (c : String),
      (∃ e, t.setTimeColumn c = Except.error e) ↔ c ∉ t.columns) ∧
    (∀ (g : GraphState) (s f d : String) (tbl : LocalTable),
      g.getTable s = some tbl → g.hasTable d = true →
      ((LocalGraph.link g s f d).1.isSome = true ↔
        (f ∉ tbl.columns ∨ ∃ l ∈ g.links, l.srcTable = s ∧ l.fkey = f ∧ l.dstTable = d))) := by
  refine ⟨?_, ?_, ?_⟩
  · intro t c
    unfold LocalTable.setPrimaryKey
    cases hm : memB c t.columns with
    | true => simp [(memB_iff c t.columns).mp hm]
    | false => simp [(memB_eq_false_iff c t.columns).mp hm]
  · intro t c
    unfold LocalTable.setTimeColumn
    cases hm : memB c t.columns with
    | true => simp [(memB_iff c t.columns).mp hm]
    | false => simp [(memB_eq_false_iff c t.columns).mp hm]
  · intro g s f d tbl hgs hd
    have hs : g.hasTable s = true := by simp [GraphState.hasTable, hgs]
    unfold LocalGraph.link
    rw [hs, hd, hgs]
    cases hm : memB f tbl.columns with
    | false =>
        simp only [Bool.not_true, Bool.not_false, Option.getD_some, hm]
        simpa using Or.inl ((memB_eq_false_iff f tbl.columns).mp hm)
    | true =>
        simp only [Bool.not_true, Bool.not_false, Option.getD_some, hm]
        cases hfind : (g.links.find? (fun l =>
            l.srcTable == s && l.fkey == f && l.dstTable == d)) with
        | some l0 =>
            have hmem := List.mem_of_find?_eq_some hfind
            have hp := List.find?_some hfind
            simp only [Bool.and_eq_true, beq_iff_eq] at hp
            simpa using Or.inr ⟨l0, hmem, hp.1.1, hp.1.2, hp.2⟩
        | none =>
            have hnone := List.find?_eq_none.mp hfind
            simp only [Option.isSome_none, Option.isSome_some, Bool.false_eq_true,
              if_true, if_false, false_iff]
            rintro (hcon | ⟨l0, hl0, e1, e2, e3⟩)
            · exact hcon ((memB_iff f tbl.columns).mp hm)
            · exact absurd (by simp [e1, e2, e3]) (hnone l0 hl0)

/-- C9 counterexample: `tblDeclared` has declared (computed) metadata whose
column list contains `"b"`, yet `setPrimaryKey("b")` fails: the source
checks the raw first-row keys (`["a"]`), never the metadata column list,
contradicting the claimed metadata-first check. -/
theorem C9_counterexample :
    tblDeclared.metadata.columns = some [cmDeclaredB] ∧
    cmDeclaredB.name = "b" ∧
    (∃ e, tblDeclared.setPrimaryKey "b" = Except.error e) :=
  ⟨rfl, rfl, ⟨"Column b does not exist in table t", by rfl⟩⟩

/-- C9 witness: the amended theorem at concrete inputs: a raw-key miss on
`tblA` fails, and a duplicate triple on `graphAB` fails. -/
theorem C9_witness :
    (∃ e, tblA.setPrimaryKey "nope" = Except.error e) ∧
    (LocalGraph.link graphAB "A" "b" "B").1.isSome = true :=
  ⟨(C9_checks_use_first_row_keys.1 tblA "nope").mpr (by decide),
   (C9_checks_use_first_row_keys.2.2 graphAB "A" "b" "B" tblA (by decide) (by decide)).mpr
     (Or.inr ⟨{ srcTable := "A", fkey := "b", dstTable := "B", validated := false },
       by decide, rfl, rfl, rfl⟩)⟩

/-! ## Reachability invariants for the graph -/

theorem link_shape (g : GraphState) (s f d : String) :
    ((LocalGraph.link g s f d).1.isSome = true ∧ (LocalGraph.link g s f d).2 = g) ∨
    ((LocalGraph.link g s f d).1 = none ∧
      (LocalGraph.link g s f d).2 =
        { g with links := g.links ++ [⟨s, f, d, false⟩], validated := false } ∧
      g.hasTable s = true ∧ g.hasTable d = true ∧
      (∃ tbl, g.getTable s = some tbl ∧ memB f tbl.columns = true) ∧
      g.links.find? (fun l => l.srcTable == s && l.fkey == f && l.dstTable == d) = none) := by
  unfold LocalGraph.link
  cases h1 : g.hasTable s with
  | false => left; simp [h1]
  | true =>
      cases h2 : g.hasTable d with
      | false => left; simp [h1, h2]
      | true =>
          obtain ⟨tbl, htbl⟩ : ∃ tbl, g.getTable s = some tbl := by
            have h3 := h1
            unfold GraphState.hasTable at h3
            exact Option.isSome_iff_exists.mp h3
          cases hm : memB f tbl.columns with
          | false => left; simp [h1, h2, htbl, hm]
          | true =>
              cases hfind : g.links.find? (fun l =>
                  l.srcTable == s && l.fkey == f && l.dstTable == d) with
              | some l0 => left; simp [h1, h2, htbl, hm]
              | none =>
                  right
                  simp [h1, h2, htbl, hm]

theorem unlink_shape (g : GraphState) (s f d : String) :
    (LocalGraph.unlink g s f d).2 = g ∨
    ∃ i, (LocalGraph.unlink g s f d).2 =
      { g with links := g.links.eraseIdx i, validated := false } := by
  unfold LocalGraph.unlink
  cases hidx : g.links.findIdx? (fun l =>
      l.srcTable == s && l.fkey == f && l.dstTable == d) with
  | none => exact Or.inl rfl
  | some i => exact Or.inr ⟨i, rfl⟩

theorem ginv_link (g : GraphState) (s f d : String) (h : GInv g) :
    GInv (LocalGraph.link g s f d).2 := by
  rcases link_shape g s f d with ⟨_, heq⟩ | ⟨_, heq, hs, hd, ⟨tbl, htbl, hm⟩, hfind⟩
  · rwa [heq]
  · obtain ⟨hwf, hdist, hfk⟩ := h
    rw [heq]
    refine ⟨?_, ?_, ?_⟩
    · intro l hl
      rcases List.mem_append.mp hl with hl | hl
      · exact hwf l hl
      · simp only [List.mem_singleton] at hl
        subst hl
        exact ⟨hs, hd⟩
    · unfold DistinctLinks
      rw [List.pairwise_append]
      refine ⟨hdist, List.pairwise_singleton _ _, ?_⟩
      intro a ha b hb
      simp only [List.mem_singleton] at hb
      subst hb
      rintro ⟨e1, e2, e3⟩
      exact (List.find?_eq_none.mp hfind a ha) (by simp [e1, e2, e3])
    · intro l hl
      rcases List.mem_append.mp hl with hl | hl
      · exact hfk l hl
      · simp only [List.mem_singleton] at hl
        subst hl
        exact ⟨tbl, htbl, hm⟩

theorem ginv_unlink (g : GraphState) (s f d : String) (h : GInv g) :
    GInv (LocalGraph.unlink g s f d).2 := by
  rcases unlink_shape g s f d with heq | ⟨i, heq⟩
  · rwa [heq]
  · obtain ⟨hwf, hdist, hfk⟩ := h
    rw [heq]
    have hsub : g.links.eraseIdx i ⊆ g.links := (List.eraseIdx_sublist g.links i).subset
    refine ⟨fun l hl => hwf l (hsub hl), ?_, fun l hl => hfk l (hsub hl)⟩
    exact List.Pairwise.sublist (List.eraseIdx_sublist g.links i) hdist

theorem foldl_preserve {α : Type} (P : GraphState → Prop) (f : GraphState → α → GraphState)
    (hf : ∀ gs a, P gs → P (f gs a)) (l : List α) (gs : GraphState) (h : P gs) :
    P (l.foldl f gs) := by
  induction l generalizing gs with
  | nil => exact h
  | cons a as ih => exact ih _ (hf _ _ h)

theorem ginv_tryLink (g : GraphState) (s f d : String) (h : GInv g) :
    GInv (tryLink g s f d) := ginv_link g s f d h

theorem ginv_inferLinkStep (s c : String) (g : GraphState) (dst : String) (h : GInv g) :
    GInv (inferLinkStep s c g dst) := by
  unfold inferLinkStep
  split_ifs
  · exact h
  · cases hgt : g.getTable dst with
    | none => exact h
    | some dstT =>
        dsimp only
        split_ifs
        · exact ginv_tryLink g s c dst h
        · exact h
  · exact h

theorem ginv_inferColumnStep (ns : List String) (s : String) (g : GraphState) (c : String)
    (h : GInv g) : GInv (inferColumnStep ns s g c) := by
  unfold inferColumnStep
  split_ifs
  · exact foldl_preserve GInv (inferLinkStep s c) (fun gs a => ginv_inferLinkStep s c gs a) ns g h
  · exact h

theorem ginv_inferLinks (g : GraphState) (h : GInv g) : GInv (LocalGraph.inferLinks g) := by
  unfold LocalGraph.inferLinks
  refine foldl_preserve GInv _ (fun gs a hgs => ?_) g.tableNames g h
  cases hgt : gs.getTable a with
  | none => exact hgs
  | some srcT =>
      exact foldl_preserve GInv (inferColumnStep g.tableNames a)
        (fun gs2 c hgs2 => ginv_inferColumnStep g.tableNames a gs2 c hgs2) srcT.columns gs hgs

theorem reachable_ginv {g : GraphState} (h : Reachable g) : GInv g := by
  induction h with
  | init ts =>
      refine ⟨?_, ?_, ?_⟩
      · intro l hl
        simp [LocalGraph.new] at hl
      · unfold DistinctLinks
        simp [LocalGraph.new]
      · intro l hl
        simp [LocalGraph.new] at hl
  | link s f d hr ih => exact ginv_link _ s f d ih
  | unlink s f d hr ih => exact ginv_unlink _ s f d ih
  | inferLinks hr ih => exact ginv_inferLinks _ ih

theorem countP_triple_eq_one (links : List TableLink) (s f d : String)
    (hdist : links.Pairwise (fun a b =>
      ¬(a.srcTable = b.srcTable ∧ a.fkey = b.fkey ∧ a.dstTable = b.dstTable)))
    (hex : ∃ l ∈ links, l.srcTable = s ∧ l.fkey = f ∧ l.dstTable = d) :
    links.countP (fun l => l.srcTable == s && l.fkey == f && l.dstTable == d) = 1 := by
  induction links with
  | nil => simp at hex
  | cons a rest ih =>
      rw [List.pairwise_cons] at hdist
      obtain ⟨ha, hrest⟩ := hdist
      by_cases hpa : a.srcTable = s ∧ a.fkey = f ∧ a.dstTable = d
      · have h0 : rest.countP
            (fun l => l.srcTable == s && l.fkey == f && l.dstTable == d) = 0 := by
          rw [List.countP_eq_zero]
          intro b hb hcb
          simp only [Bool.and_eq_true, beq_iff_eq] at hcb
          exact ha b hb
            ⟨hpa.1.trans hcb.1.1.symm, hpa.2.1.trans hcb.1.2.symm, hpa.2.2.trans hcb.2.symm⟩
        have hca : (a.srcTable == s && a.fkey == f && a.dstTable == d) = true := by
          simp [hpa.1, hpa.2.1, hpa.2.2]
        rw [List.countP_cons, h0, hca]
        simp
      · have hrec : (∃ l ∈ rest, l.srcTable = s ∧ l.fkey = f ∧ l.dstTable = d) := by
          obtain ⟨l, hl, he⟩ := hex
          rcases List.mem_cons.mp hl with hl | hl
          · exact absurd (hl ▸ he) hpa
          · exact ⟨l, hl, he⟩
        have hca : (a.srcTable == s && a.fkey == f && a.dstTable == d) = false := by
          rw [Bool.eq_false_iff]
          intro hcon
          simp only [Bool.and_eq_true, beq_iff_eq] at hcon
          exact hpa ⟨hcon.1.1, hcon.1.2, hcon.2⟩
        rw [List.countP_cons, ih hrest hrec, hca]
        simp

/-- C5: in every graph state reachable by `link`, `unlink` and `inferLinks`
operations, no two links share the (srcTable, fkey, dstTable) triple; and
whenever a link with the triple is present, calling `link` with that triple
fails with `ValidationError` and exactly one such link is present. -/
theorem C5_no_duplicate_triples (g : GraphState) (h : Reachable g) :
    DistinctLinks g ∧
    (∀ s f d, (∃ l ∈ g.links, l.srcTable = s ∧ l.fkey = f ∧ l.dstTable = d) →
      (LocalGraph.link g s f d).1.isSome = true ∧
      g.links.countP (fun l => l.srcTable == s && l.fkey == f && l.dstTable == d) = 1) := by
  obtain ⟨hwf, hdist, hfk⟩ := reachable_ginv h
  refine ⟨hdist, ?_⟩
  intro s f d hex
  refine ⟨?_, countP_triple_eq_one g.links s f d hdist hex⟩
  rcases link_shape g s f d with ⟨hsome, _⟩ | ⟨_, _, _, _, _, hfind⟩
  · exact hsome
  · exfalso
    obtain ⟨l, hl, e1, e2, e3⟩ := hex
    exact (List.find?_eq_none.mp hfind l hl) (by simp [e1, e2, e3])

/-- C5 witness: on the concrete reachable graph `graphAB` containing the
link `A.b -> B`, relinking the identical triple fails and exactly one such
link is present. -/
theorem C5_witness :
    (LocalGraph.link graphAB "A" "b" "B").1.isSome = true ∧
    graphAB.links.countP
      (fun l => l.srcTable == "A" && l.fkey == "b" && l.dstTable == "B") = 1 :=
  (C5_no_duplicate_triples graphAB
      (Reachable.link "A" "b" "B" (Reachable.init [tblA, tblB]))).2 "A" "b" "B"
    ⟨{ srcTable := "A", fkey := "b", dstTable := "B", validated := false },
      by decide, rfl, rfl, rfl⟩

/-! ## DFS cycle detection: basic lemmas -/

theorem subset_addOnce (x : String) (l : List String) : l ⊆ addOnce x l := by
  unfold addOnce
  split_ifs
  · exact fun a ha => ha
  · exact fun a ha => List.mem_cons_of_mem x ha

theorem mem_addOnce_self (x : String) (l : List String) : x ∈ addOnce x l := by
  unfold addOnce
  split_ifs with h
  · exact (memB_iff x l).mp h
  · exact List.mem_cons_self x l

theorem mem_addOnce_iff (y x : String) (l : List String) :
    y ∈ addOnce x l ↔ y = x ∨ y ∈ l := by
  unfold addOnce
  split_ifs with h
  · constructor
    · exact Or.inr
    · rintro (rfl | hy)
      · exact (memB_iff y l).mp h
      · exact hy
  · exact List.mem_cons

theorem addOnce_of_not_mem (x : String) (l : List String) (h : x ∉ l) :
    addOnce x l = x :: l := by
  have hm : memB x l = false := (memB_eq_false_iff x l).mpr h
  simp [addOnce, hm]

theorem removeOnce_cons_self (x : String) (t : List String) : removeOnce x (x :: t) = t := by
  simp [removeOnce]

theorem dfsVisit_zero (links : List TableLink) (node : String) (st : DfsState) :
    dfsVisit links 0 node st = none := by
  rw [dfsVisit]

theorem dfsVisit_succ_eq (links : List TableLink) (fuel : Nat) (node : String) (st : DfsState) :
    dfsVisit links (fuel + 1) node st =
      match dfsLoop links fuel (links.filter (fun l => l.srcTable == node))
          ⟨addOnce node st.visited, addOnce node st.stack⟩ with
      | none => none
      | some (true, st2) => some (true, st2)
      | some (false, st2) => some (false, ⟨st2.visited, removeOnce node st2.stack⟩) := by
  rw [dfsVisit]

theorem dfsLoop_nil (links : List TableLink) (fuel : Nat) (st : DfsState) :
    dfsLoop links fuel [] st = some (false, st) := by
  rw [dfsLoop]

theorem dfsLoop_cons (links : List TableLink) (fuel : Nat) (l : TableLink)
    (ls : List TableLink) (st : DfsState) :
    dfsLoop links fuel (l :: ls) st =
      if memB l.dstTable st.visited then
        if memB l.dstTable st.stack then some (true, st) else dfsLoop links fuel ls st
      else
        match dfsVisit links fuel l.dstTable st with
        | none => none
        | some (true, st2) => some (true, st2)
        | some (false, st2) => dfsLoop links fuel ls st2 := by
  rw [dfsLoop]

theorem dfsLoop_mono_of (links : List TableLink) (fuel : Nat)
    (hV : ∀ node st b st2, dfsVisit links fuel node st = some (b, st2) →
      st.visited ⊆ st2.visited) :
    ∀ pend st b st2, dfsLoop links fuel pend st = some (b, st2) →
      st.visited ⊆ st2.visited := by
  intro pend
  induction pend with
  | nil =>
      intro st b st2 h
      rw [dfsLoop_nil] at h
      simp only [Option.some.injEq, Prod.mk.injEq] at h
      rw [← h.2]
      exact fun a ha => ha
  | cons l ls ih =>
      intro st b st2 h
      rw [dfsLoop_cons] at h
      by_cases h1 : memB l.dstTable st.visited = true
      · rw [if_pos h1] at h
        by_cases h2 : memB l.dstTable st.stack = true
        · rw [if_pos h2] at h
          simp only [Option.some.injEq, Prod.mk.injEq] at h
          rw [← h.2]
          exact fun a ha => ha
        · rw [if_neg h2] at h
          exact ih st b st2 h
      · rw [if_neg h1] at h
        cases hv : dfsVisit links fuel l.dstTable st with
        | none =>
            rw [hv] at h
            exact absurd h (by simp)
        | some p =>
            obtain ⟨bv, stv⟩ := p
            rw [hv] at h
            cases bv
            · dsimp only at h
              exact (hV _ _ _ _ hv).trans (ih stv b st2 h)
            · dsimp only at h
              simp only [Option.some.injEq, Prod.mk.injEq] at h
              rw [← h.2]
              exact hV _ _ _ _ hv

theorem dfsVisit_mono (links : List TableLink) :
    ∀ fuel node st b st2, dfsVisit links fuel node st = some (b, st2) →
      st.visited ⊆ st2.visited := by
  intro fuel
  induction fuel with
  | zero =>
      intro node st b st2 h
      rw [dfsVisit_zero] at h
      exact absurd h (by simp)
  | succ n ih =>
      intro node st b st2 h
      rw [dfsVisit_succ_eq] at h
      cases hl : dfsLoop links n (links.filter (fun l => l.srcTable == node))
          ⟨addOnce node st.visited, addOnce node st.stack⟩ with
      | none =>
          rw [hl] at h
          exact absurd h (by simp)
      | some p =>
          obtain ⟨bl, stl⟩ := p
          rw [hl] at h
          have hmono := dfsLoop_mono_of links n (fun nd s b2 s2 hh => ih nd s b2 s2 hh)
            _ _ _ _ hl
          have base : st.visited ⊆ stl.visited := (subset_addOnce node st.visited).trans hmono
          cases bl
          · dsimp only at h
            simp only [Option.some.injEq, Prod.mk.injEq] at h
            rw [← h.2]
            exact base
          · dsimp only at h
            simp only [Option.some.injEq, Prod.mk.injEq] at h
            rw [← h.2]
            exact base

theorem dfsLoop_mono (links : List TableLink) (fuel : Nat) (pend : List TableLink)
    (st : DfsState) (b : Bool) (st2 : DfsState)
    (h : dfsLoop links fuel pend st = some (b, st2)) : st.visited ⊆ st2.visited :=
  dfsLoop_mono_of links fuel (fun nd s b2 s2 hh => dfsVisit_mono links fuel nd s b2 s2 hh)
    pend st b st2 h

/-! ## DFS cycle detection: fuel sufficiency -/

theorem remCount_le_length (U v : List String) : remCount U v ≤ U.length := by
  unfold remCount
  exact List.length_filter_le _ _

theorem remCount_mono (U v w : List String) (h : v ⊆ w) : remCount U w ≤ remCount U v := by
  unfold remCount
  induction U with
  | nil => simp
  | cons u us ih =>
      simp only [List.filter_cons]
      by_cases hw : u ∈ w
      · have h1 : decide (u ∉ w) = false := decide_eq_false_iff_not.mpr (not_not_intro hw)
        by_cases hv : u ∈ v
        · have h2 : decide (u ∉ v) = false := decide_eq_false_iff_not.mpr (not_not_intro hv)
          simp only [h1, h2, Bool.false_eq_true, if_false]
          exact ih
        · have h2 : decide (u ∉ v) = true := decide_eq_true hv
          simp only [h1, h2, Bool.false_eq_true, if_false, if_true, List.length_cons]
          exact Nat.le_succ_of_le ih
      · have hv : u ∉ v := fun hc => hw (h hc)
        have h1 : decide (u ∉ w) = true := decide_eq_true hw
        have h2 : decide (u ∉ v) = true := decide_eq_true hv
        simp only [h1, h2, if_true, List.length_cons]
        exact Nat.succ_le_succ ih

theorem remCount_cons_lt (U v : List String) (x : String) (hx : x ∈ U) (hnv : x ∉ v) :
    remCount U (x :: v) < remCount U v := by
  induction U with
  | nil => cases hx
  | cons u us ih =>
      have hsubv : v ⊆ x :: v := fun a ha => List.mem_cons_of_mem x ha
      have hmono := remCount_mono us v (x :: v) hsubv
      unfold remCount at hmono ⊢
      simp only [List.filter_cons]
      rcases List.mem_cons.mp hx with rfl | hx2
      · have h1 : decide (x ∉ x :: v) = false :=
          decide_eq_false_iff_not.mpr (not_not_intro (List.mem_cons_self x v))
        have h2 : decide (x ∉ v) = true := decide_eq_true hnv
        simp only [h1, h2, Bool.false_eq_true, if_false, if_true, List.length_cons]
        omega
      · have hrec := ih hx2
        unfold remCount at hrec
        by_cases hu : u ∈ x :: v
        · have h1 : decide (u ∉ x :: v) = false := decide_eq_false_iff_not.mpr (not_not_intro hu)
          by_cases hu2 : u ∈ v
          · have h2 : decide (u ∉ v) = false := decide_eq_false_iff_not.mpr (not_not_intro hu2)
            simp only [h1, h2, Bool.false_eq_true, if_false]
            exact hrec
          · have h2 : decide (u ∉ v) = true := decide_eq_true hu2
            simp only [h1, h2, Bool.false_eq_true, if_false, if_true, List.length_cons]
            omega
        · have hu2 : u ∉ v := fun hc => hu (List.mem_cons_of_mem _ hc)
          have h1 : decide (u ∉ x :: v) = true := decide_eq_true hu
          have h2 : decide (u ∉ v) = true := decide_eq_true hu2
          simp only [h1, h2, if_true, List.length_cons]
          omega

theorem dfsLoop_ne_none (links : List TableLink) (U : List String) (fuel : Nat)
    (hU : ∀ l ∈ links, l.dstTable ∈ U)
    (hV : ∀ node st, node ∈ U → node ∉ st.visited → remCount U st.visited < fuel →
      dfsVisit links fuel node st ≠ none) :
    ∀ pend st, (∀ l ∈ pend, l ∈ links) → remCount U st.visited < fuel →
      dfsLoop links fuel pend st ≠ none := by
  intro pend
  induction pend with
  | nil =>
      intro st _ _
      rw [dfsLoop_nil]
      simp
  | cons l ls ih =>
      intro st hp hrem
      rw [dfsLoop_cons]
      by_cases h1 : memB l.dstTable st.visited = true
      · rw [if_pos h1]
        by_cases h2 : memB l.dstTable st.stack = true
        · rw [if_pos h2]
          simp
        · rw [if_neg h2]
          exact ih st (fun a ha => hp a (List.mem_cons_of_mem _ ha)) hrem
      · rw [if_neg h1]
        have hdmem : l.dstTable ∈ U := hU l (hp l (List.mem_cons_self _ _))
        have hdnv : l.dstTable ∉ st.visited :=
          (memB_eq_false_iff _ _).mp (Bool.eq_false_iff.mpr h1)
        cases hv : dfsVisit links fuel l.dstTable st with
        | none => exact absurd hv (hV _ _ hdmem hdnv hrem)
        | some p =>
            obtain ⟨bv, stv⟩ := p
            cases bv
            · dsimp only
              have hsub := dfsVisit_mono links fuel _ _ _ _ hv
              exact ih stv (fun a ha => hp a (List.mem_cons_of_mem _ ha))
                (lt_of_le_of_lt (remCount_mono U _ _ hsub) hrem)
            · dsimp only
              simp

theorem dfsVisit_ne_none (links : List TableLink) (U : List String)
    (hU : ∀ l ∈ links, l.dstTable ∈ U) :
    ∀ fuel node st, node ∈ U → node ∉ st.visited → remCount U st.visited < fuel →
      dfsVisit links fuel node st ≠ none := by
  intro fuel
  induction fuel with
  | zero =>
      intro node st _ _ h
      exact absurd h (Nat.not_lt_zero _)
  | succ n ih =>
      intro node st hmem hnv hrem
      rw [dfsVisit_succ_eq]
      have hst1 : remCount U (addOnce node st.visited) < n := by
        rw [addOnce_of_not_mem node _ hnv]
        have := remCount_cons_lt U st.visited node hmem hnv
        omega
      have hloop := dfsLoop_ne_none links U n hU ih
        (links.filter (fun l => l.srcTable == node))
        ⟨addOnce node st.visited, addOnce node st.stack⟩
        (fun a ha => List.mem_of_mem_filter ha) hst1
      cases hl : dfsLoop links n (links.filter (fun l => l.srcTable == node))
          ⟨addOnce node st.visited, addOnce node st.stack⟩ with
      | none => exact absurd hl hloop
      | some p =>
          obtain ⟨bl, stl⟩ := p
          cases bl <;> dsimp only <;> simp

theorem dfsForest_ne_none (links : List TableLink) (U : List String)
    (hU : ∀ l ∈ links, l.dstTable ∈ U) (fuel : Nat) :
    ∀ ns st, (∀ n ∈ ns, n ∈ U) → remCount U st.visited < fuel →
      dfsForest links fuel ns st ≠ none := by
  intro ns
  induction ns with
  | nil =>
      intro st _ _
      simp [dfsForest]
  | cons n ns2 ih =>
      intro st hns hrem
      simp only [dfsForest]
      by_cases h1 : memB n st.visited = true
      · rw [if_pos h1]
        exact ih st (fun a ha => hns a (List.mem_cons_of_mem _ ha)) hrem
      · rw [if_neg h1]
        have hnv : n ∉ st.visited := (memB_eq_false_iff _ _).mp (Bool.eq_false_iff.mpr h1)
        cases hv : dfsVisit links fuel n st with
        | none =>
            exact absurd hv
              (dfsVisit_ne_none links U hU fuel n st (hns n (List.mem_cons_self _ _)) hnv hrem)
        | some p =>
            obtain ⟨bv, stv⟩ := p
            cases bv
            · dsimp only
              have hsub := dfsVisit_mono links fuel _ _ _ _ hv
              exact ih stv (fun a ha => hns a (List.mem_cons_of_mem _ ha))
                (lt_of_le_of_lt (remCount_mono U _ _ hsub) hrem)
            · dsimp only
              simp

theorem hasCirc_forest (g : GraphState) :
    ∃ b st2, dfsForest g.links (dfsFuel g) g.tableNames ⟨[], []⟩ = some (b, st2) ∧
      hasCircularReference g = b := by
  have hU1 : ∀ l ∈ g.links, l.dstTable ∈ g.tableNames ++ g.links.map (·.dstTable) :=
    fun l hl => List.mem_append.mpr (Or.inr (List.mem_map_of_mem _ hl))
  have hU2 : ∀ n ∈ g.tableNames, n ∈ g.tableNames ++ g.links.map (·.dstTable) :=
    fun n hn => List.mem_append.mpr (Or.inl hn)
  have hfuel : remCount (g.tableNames ++ g.links.map (·.dstTable)) [] < dfsFuel g := by
    unfold dfsFuel
    have := remCount_le_length (g.tableNames ++ g.links.map (·.dstTable)) []
    omega
  have hne := dfsForest_ne_none g.links (g.tableNames ++ g.links.map (·.dstTable)) hU1
    (dfsFuel g) g.tableNames ⟨[], []⟩ hU2 hfuel
  cases hf : dfsForest g.links (dfsFuel g) g.tableNames ⟨[], []⟩ with
  | none => exact absurd hf hne
  | some p =>
      obtain ⟨b, st2⟩ := p
      refine ⟨b, st2, rfl, ?_⟩
      unfold hasCircularReference
      rw [hf]

/-! ## DFS cycle detection: state shape on false returns -/

theorem dfsLoop_basic_of (links : List TableLink) (fuel : Nat)
    (hBV : ∀ node st st2, dfsVisit links fuel node st = some (false, st2) →
      node ∉ st.visited → StackOk st →
      st2.stack = st.stack ∧ st.visited ⊆ st2.visited ∧ node ∈ st2.visited ∧ StackOk st2) :
    ∀ pend st st2, dfsLoop links fuel pend st = some (false, st2) → StackOk st →
      st2.stack = st.stack ∧ st.visited ⊆ st2.visited ∧ StackOk st2 := by
  intro pend
  induction pend with
  | nil =>
      intro st st2 h hok
      rw [dfsLoop_nil] at h
      simp only [Option.some.injEq, Prod.mk.injEq] at h
      rw [← h.2]
      exact ⟨rfl, fun a ha => ha, hok⟩
  | cons l ls ih =>
      intro st st2 h hok
      rw [dfsLoop_cons] at h
      by_cases h1 : memB l.dstTable st.visited = true
      · rw [if_pos h1] at h
        by_cases h2 : memB l.dstTable st.stack = true
        · rw [if_pos h2] at h
          simp at h
        · rw [if_neg h2] at h
          exact ih st st2 h hok
      · rw [if_neg h1] at h
        have hnv : l.dstTable ∉ st.visited :=
          (memB_eq_false_iff _ _).mp (Bool.eq_false_iff.mpr h1)
        cases hv : dfsVisit links fuel l.dstTable st with
        | none =>
            rw [hv] at h
            exact absurd h (by simp)
        | some p =>
            obtain ⟨bv, stv⟩ := p
            rw [hv] at h
            cases bv
            · dsimp only at h
              obtain ⟨hstk, hvis, hmem, hok2⟩ := hBV _ _ _ hv hnv hok
              obtain ⟨hstk2, hvis2, hok3⟩ := ih stv st2 h hok2
              exact ⟨hstk2.trans hstk, hvis.trans hvis2, hok3⟩
            · dsimp only at h
              simp at h

theorem dfsVisit_basic (links : List TableLink) :
    ∀ fuel node st st2, dfsVisit links fuel node st = some (false, st2) →
      node ∉ st.visited → StackOk st →
      st2.stack = st.stack ∧ st.visited ⊆ st2.visited ∧ node ∈ st2.visited ∧ StackOk st2 := by
  intro fuel
  induction fuel with
  | zero =>
      intro node st st2 h
      rw [dfsVisit_zero] at h
      exact absurd h (by simp)
  | succ n ih =>
      intro node st st2 h hnv hok
      rw [dfsVisit_succ_eq] at h
      have hnstk : node ∉ st.stack := fun hc => hnv (hok node hc)
      have hstack1 : addOnce node st.stack = node :: st.stack := addOnce_of_not_mem node _ hnstk
      have hvis1 : addOnce node st.visited = node :: st.visited := addOnce_of_not_mem node _ hnv
      cases hl : dfsLoop links n (links.filter (fun l => l.srcTable == node))
          ⟨addOnce node st.visited, addOnce node st.stack⟩ with
      | none =>
          rw [hl] at h
          exact absurd h (by simp)
      | some p =>
          obtain ⟨bl, stl⟩ := p
          rw [hl] at h
          cases bl
          · dsimp only at h
            simp only [Option.some.injEq, Prod.mk.injEq] at h
            have hok1 : StackOk ⟨addOnce node st.visited, addOnce node st.stack⟩ := by
              intro x hx
              simp only at hx ⊢
              rw [hstack1] at hx
              rw [hvis1]
              rcases List.mem_cons.mp hx with rfl | hx2
              · exact List.mem_cons_self _ _
              · exact List.mem_cons_of_mem _ (hok x hx2)
            obtain ⟨hstkJ, hvisJ, hokJ⟩ := dfsLoop_basic_of links n ih _ _ _ hl hok1
            rw [← h.2]
            refine ⟨?_, ?_, ?_, ?_⟩
            · show removeOnce node stl.stack = st.stack
              rw [hstkJ]
              show removeOnce node (addOnce node st.stack) = st.stack
              rw [hstack1, removeOnce_cons_self]
            · intro a ha
              exact hvisJ (subset_addOnce node st.visited ha)
            · exact hvisJ (mem_addOnce_self node st.visited)
            · intro x hx
              simp only at hx
              rw [hstkJ] at hx
              have hx2 : x ∈ st.stack := by
                have : removeOnce node (addOnce node st.stack) = st.stack := by
                  rw [hstack1, removeOnce_cons_self]
                rwa [show (⟨addOnce node st.visited,
                  addOnce node st.stack⟩ : DfsState).stack = addOnce node st.stack from rfl,
                  hstack1, removeOnce_cons_self] at hx
              exact hvisJ (subset_addOnce node st.visited (hok x hx2))
          · dsimp only at h
            simp at h

/-! ## DFS cycle detection: soundness -/

theorem chain_path (links : List TableLink) :
    ∀ (t : List String) (h x : String), StackChain links (h :: t) → x ∈ h :: t →
      Relation.ReflTransGen (Edge links) x h := by
  intro t
  induction t with
  | nil =>
      intro h x hch hx
      rcases List.mem_cons.mp hx with rfl | hx2
      · exact Relation.ReflTransGen.refl
      · simp at hx2
  | cons b t2 ih =>
      intro h x hch hx
      have hch2 : StackChain links (b :: t2) := (List.chain'_cons.mp hch).2
      have hedge : Edge links b h := (List.chain'_cons.mp hch).1
      rcases List.mem_cons.mp hx with rfl | hx2
      · exact Relation.ReflTransGen.refl
      · exact Relation.ReflTransGen.tail (ih b x hch2 hx2) hedge

theorem dfsLoop_sound_of (links : List TableLink) (fuel : Nat)
    (hSV : ∀ node st st2, dfsVisit links fuel node st = some (true, st2) →
      node ∉ st.visited → StackOk st → StackChain links (node :: st.stack) → HasCycle links) :
    ∀ node pend st st2, dfsLoop links fuel pend st = some (true, st2) →
      (∀ l ∈ pend, l ∈ links ∧ l.srcTable = node) →
      (∃ rest, st.stack = node :: rest) →
      StackOk st → StackChain links st.stack → HasCycle links := by
  intro node pend
  induction pend with
  | nil =>
      intro st st2 h
      rw [dfsLoop_nil] at h
      simp at h
  | cons l ls ih =>
      intro st st2 h hp hhead hok hch
      obtain ⟨rest, hrest⟩ := hhead
      obtain ⟨hlmem, hlsrc⟩ := hp l (List.mem_cons_self _ _)
      rw [dfsLoop_cons] at h
      by_cases h1 : memB l.dstTable st.visited = true
      · rw [if_pos h1] at h
        by_cases h2 : memB l.dstTable st.stack = true
        · have hdst_stack : l.dstTable ∈ st.stack := (memB_iff _ _).mp h2
          have hpath : Relation.ReflTransGen (Edge links) l.dstTable node := by
            refine chain_path links rest node l.dstTable ?_ ?_
            · rwa [hrest] at hch
            · rwa [hrest] at hdst_stack
          have hedge : Edge links node l.dstTable := ⟨l, hlmem, hlsrc, rfl⟩
          exact ⟨l.dstTable, Relation.TransGen.tail' hpath hedge⟩
        · rw [if_neg h2] at h
          exact ih st st2 h (fun a ha => hp a (List.mem_cons_of_mem _ ha)) ⟨rest, hrest⟩ hok hch
      · rw [if_neg h1] at h
        have hnv : l.dstTable ∉ st.visited :=
          (memB_eq_false_iff _ _).mp (Bool.eq_false_iff.mpr h1)
        cases hv : dfsVisit links fuel l.dstTable st with
        | none =>
            rw [hv] at h
            exact absurd h (by simp)
        | some p =>
            obtain ⟨bv, stv⟩ := p
            rw [hv] at h
            cases bv
            · dsimp only at h
              obtain ⟨hstk, hvis, hmem, hok2⟩ := dfsVisit_basic links fuel _ _ _ hv hnv hok
              refine ih stv st2 h (fun a ha => hp a (List.mem_cons_of_mem _ ha))
                ⟨rest, by rw [hstk, hrest]⟩ hok2 ?_
              unfold StackChain at hch ⊢
              rw [hstk]
              exact hch
            · dsimp only at h
              refine hSV _ _ _ hv hnv hok ?_
              unfold StackChain at hch ⊢
              rw [hrest]
              rw [List.chain'_cons]
              refine ⟨⟨l, hlmem, hlsrc, rfl⟩, ?_⟩
              rw [← hrest]
              exact hch

theorem dfsVisit_sound (links : List TableLink) :
    ∀ fuel node st st2, dfsVisit links fuel node st = some (true, st2) →
      node ∉ st.visited → StackOk st → StackChain links (node :: st.stack) →
      HasCycle links := by
  intro fuel
  induction fuel with
  | zero =>
      intro node st st2 h
      rw [dfsVisit_zero] at h
      exact absurd h (by simp)
  | succ n ih =>
      intro node st st2 h hnv hok hch
      rw [dfsVisit_succ_eq] at h
      have hnstk : node ∉ st.stack := fun hc => hnv (hok _ hc)
      have hstack1 : addOnce node st.stack = node :: st.stack := addOnce_of_not_mem node _ hnstk
      cases hl : dfsLoop links n (links.filter (fun l => l.srcTable == node))
          ⟨addOnce node st.visited, addOnce node st.stack⟩ with
      | none =>
          rw [hl] at h
          exact absurd h (by simp)
      | some p =>
          obtain ⟨bl, stl⟩ := p
          rw [hl] at h
          cases bl
          · dsimp only at h
            simp at h
          · have hok1 : StackOk ⟨addOnce node st.visited, addOnce node st.stack⟩ := by
              intro x hx
              simp only at hx ⊢
              rw [hstack1] at hx
              rw [addOnce_of_not_mem node _ hnv]
              rcases List.mem_cons.mp hx with rfl | hx2
              · exact List.mem_cons_self _ _
              · exact List.mem_cons_of_mem _ (hok x hx2)
            refine dfsLoop_sound_of links n ih node _ _ _ hl ?_ ⟨st.stack, ?_⟩ hok1 ?_
            · intro a ha
              refine ⟨List.mem_of_mem_filter ha, ?_⟩
              have := List.of_mem_filter ha
              simpa using this
            · show addOnce node st.stack = node :: st.stack
              exact hstack1
            · show StackChain links (addOnce node st.stack)
              rw [hstack1]
              exact hch

theorem dfsForest_sound (links : List TableLink) (fuel : Nat) :
    ∀ ns st st2, dfsForest links fuel ns st = some (true, st2) →
      StackOk st → st.stack = [] → HasCycle links := by
  intro ns
  induction ns with
  | nil =>
      intro st st2 h
      simp [dfsForest] at h
  | cons n ns2 ih =>
      intro st st2 h hok hstk
      simp only [dfsForest] at h
      by_cases h1 : memB n st.visited = true
      · rw [if_pos h1] at h
        exact ih st st2 h hok hstk
      · rw [if_neg h1] at h
        have hnv : n ∉ st.visited := (memB_eq_false_iff _ _).mp (Bool.eq_false_iff.mpr h1)
        cases hv : dfsVisit links fuel n st with
        | none =>
            rw [hv] at h
            exact absurd h (by simp)
        | some p =>
            obtain ⟨bv, stv⟩ := p
            rw [hv] at h
            cases bv
            · dsimp only at h
              obtain ⟨hstk2, _, _, hok2⟩ := dfsVisit_basic links fuel _ _ _ hv hnv hok
              exact ih stv st2 h hok2 (by rw [hstk2, hstk])
            · refine dfsVisit_sound links fuel n st stv hv hnv hok ?_
              unfold StackChain
              rw [hstk]
              exact List.chain'_singleton _

/-! ## DFS cycle detection: completeness invariant -/

theorem le_foldr_max (f : String → Nat) (l : List String) (a : String) (ha : a ∈ l) :
    f a ≤ (l.map f).foldr max 0 := by
  induction l with
  | nil => cases ha
  | cons x xs ih =>
      simp only [List.map_cons, List.foldr_cons]
      rcases List.mem_cons.mp ha with rfl | ha2
      · exact le_max_left _ _
      · exact le_trans (ih ha2) (le_max_right _ _)

theorem goodRank_congr (links : List TableLink) (st st2 : DfsState) (f : String → Nat)
    (hdone : ∀ x, DfsDone st x ↔ DfsDone st2 x) (hg : GoodRank links st f) :
    GoodRank links st2 f := by
  intro x hx l hl hsrc
  obtain ⟨h1, h2⟩ := hg x ((hdone x).mpr hx) l hl hsrc
  exact ⟨(hdone _).mp h1, h2⟩

theorem dfsLoop_inv_of (links : List TableLink) (fuel : Nat)
    (hCV : ∀ node st st2, dfsVisit links fuel node st = some (false, st2) →
      node ∉ st.visited → StackOk st → DfsInv links st →
      DfsInv links st2 ∧ (∀ x, DfsDone st x → DfsDone st2 x) ∧ DfsDone st2 node) :
    ∀ node pend st st2, dfsLoop links fuel pend st = some (false, st2) →
      (∀ l ∈ pend, l ∈ links ∧ l.srcTable = node) →
      (∃ rest, st.stack = node :: rest) → StackOk st → DfsInv links st →
      DfsInv links st2 ∧ (∀ x, DfsDone st x → DfsDone st2 x) ∧
        (∀ l ∈ pend, DfsDone st2 l.dstTable) := by
  intro node pend
  induction pend with
  | nil =>
      intro st st2 h _ _ _ hinv
      rw [dfsLoop_nil] at h
      simp only [Option.some.injEq, Prod.mk.injEq] at h
      rw [← h.2]
      exact ⟨hinv, fun x hx => hx, by simp⟩
  | cons l ls ih =>
      intro st st2 h hp hhead hok hinv
      obtain ⟨rest, hrest⟩ := hhead
      rw [dfsLoop_cons] at h
      by_cases h1 : memB l.dstTable st.visited = true
      · rw [if_pos h1] at h
        by_cases h2 : memB l.dstTable st.stack = true
        · rw [if_pos h2] at h
          simp at h
        · rw [if_neg h2] at h
          have hdone : DfsDone st l.dstTable :=
            ⟨(memB_iff _ _).mp h1, (memB_eq_false_iff _ _).mp (Bool.eq_false_iff.mpr h2)⟩
          obtain ⟨hinv2, hmono, htargets⟩ :=
            ih st st2 h (fun a ha => hp a (List.mem_cons_of_mem _ ha)) ⟨rest, hrest⟩ hok hinv
          refine ⟨hinv2, hmono, ?_⟩
          intro a ha
          rcases List.mem_cons.mp ha with rfl | ha2
          · exact hmono _ hdone
          · exact htargets a ha2
      · rw [if_neg h1] at h
        have hnv : l.dstTable ∉ st.visited :=
          (memB_eq_false_iff _ _).mp (Bool.eq_false_iff.mpr h1)
        cases hv : dfsVisit links fuel l.dstTable st with
        | none =>
            rw [hv] at h
            exact absurd h (by simp)
        | some p =>
            obtain ⟨bv, stv⟩ := p
            rw [hv] at h
            cases bv
            · dsimp only at h
              obtain ⟨hinvV, hmonoV, hdoneV⟩ := hCV _ _ _ hv hnv hok hinv
              obtain ⟨hstkV, hvisV, hmemV, hokV⟩ := dfsVisit_basic links fuel _ _ _ hv hnv hok
              obtain ⟨hinv2, hmono2, htargets⟩ :=
                ih stv st2 h (fun a ha => hp a (List.mem_cons_of_mem _ ha))
                  ⟨rest, by rw [hstkV, hrest]⟩ hokV hinvV
              refine ⟨hinv2, fun x hx => hmono2 x (hmonoV x hx), ?_⟩
              intro a ha
              rcases List.mem_cons.mp ha with rfl | ha2
              · exact hmono2 _ hdoneV
              · exact htargets a ha2
            · dsimp only at h
              simp at h

theorem dfsVisit_inv (links : List TableLink) :
    ∀ fuel node st st2, dfsVisit links fuel node st = some (false, st2) →
      node ∉ st.visited → StackOk st → DfsInv links st →
      DfsInv links st2 ∧ (∀ x, DfsDone st x → DfsDone st2 x) ∧ DfsDone st2 node := by
  intro fuel
  induction fuel with
  | zero =>
      intro node st st2 h
      rw [dfsVisit_zero] at h
      exact absurd h (by simp)
  | succ n ih =>
      intro node st st2 h hnv hok hinv
      rw [dfsVisit_succ_eq] at h
      have hnstk : node ∉ st.stack := fun hc => hnv (hok _ hc)
      have hstack1 : addOnce node st.stack = node :: st.stack := addOnce_of_not_mem node _ hnstk
      have hvis1 : addOnce node st.visited = node :: st.visited := addOnce_of_not_mem node _ hnv
      have hdone1 : ∀ x, DfsDone st x ↔
          DfsDone ⟨addOnce node st.visited, addOnce node st.stack⟩ x := by
        intro x
        unfold DfsDone
        dsimp only
        rw [hvis1, hstack1]
        constructor
        · rintro ⟨hxv, hxs⟩
          have hxne : x ≠ node := fun hc => hnv (hc ▸ hxv)
          refine ⟨List.mem_cons_of_mem _ hxv, ?_⟩
          intro hc
          rcases List.mem_cons.mp hc with rfl | h2
          · exact hxne rfl
          · exact hxs h2
        · rintro ⟨hxv, hxs⟩
          have hxne : x ≠ node := fun hc => hxs (by rw [hc]; exact List.mem_cons_self _ _)
          refine ⟨?_, fun hc => hxs (List.mem_cons_of_mem _ hc)⟩
          rcases List.mem_cons.mp hxv with rfl | h2
          · exact absurd rfl hxne
          · exact h2
      have hok1 : StackOk ⟨addOnce node st.visited, addOnce node st.stack⟩ := by
        intro x hx
        dsimp only at hx ⊢
        rw [hstack1] at hx
        rw [hvis1]
        rcases List.mem_cons.mp hx with rfl | hx2
        · exact List.mem_cons_self _ _
        · exact List.mem_cons_of_mem _ (hok x hx2)
      have hinv1 : DfsInv links ⟨addOnce node st.visited, addOnce node st.stack⟩ := by
        obtain ⟨f, hf⟩ := hinv
        exact ⟨f, goodRank_congr links st _ f hdone1 hf⟩
      cases hl : dfsLoop links n (links.filter (fun l => l.srcTable == node))
          ⟨addOnce node st.visited, addOnce node st.stack⟩ with
      | none =>
          rw [hl] at h
          exact absurd h (by simp)
      | some p =>
          obtain ⟨bl, stl⟩ := p
          rw [hl] at h
          cases bl
          · dsimp only at h
            simp only [Option.some.injEq, Prod.mk.injEq] at h
            obtain ⟨hinvJ, hmonoJ, htargetsJ⟩ := dfsLoop_inv_of links n ih node _ _ _ hl
              (fun a ha => ⟨List.mem_of_mem_filter ha, by simpa using List.of_mem_filter ha⟩)
              ⟨st.stack, by dsimp only; exact hstack1⟩ hok1 hinv1
            obtain ⟨hstkJ, hvisJ, hokJ⟩ :=
              dfsLoop_basic_of links n (fun a b c hh hx hy => dfsVisit_basic links n a b c hh hx hy)
                _ _ _ hl hok1
            dsimp only at hstkJ hvisJ
            have hstlstack : stl.stack = node :: st.stack := by rw [hstkJ, hstack1]
            have hfinstack : removeOnce node stl.stack = st.stack := by
              rw [hstlstack, removeOnce_cons_self]
            have hnodevis : node ∈ stl.visited := hvisJ (mem_addOnce_self node st.visited)
            have hdoneF : ∀ x, DfsDone (⟨stl.visited, removeOnce node stl.stack⟩ : DfsState) x ↔
                (DfsDone stl x ∨ x = node) := by
              intro x
              unfold DfsDone
              dsimp only
              rw [hfinstack]
              constructor
              · rintro ⟨hxv, hxs⟩
                by_cases hxn : x = node
                · exact Or.inr hxn
                · refine Or.inl ⟨hxv, ?_⟩
                  rw [hstlstack]
                  intro hc
                  rcases List.mem_cons.mp hc with rfl | h2
                  · exact hxn rfl
                  · exact hxs h2
              · rintro (⟨hxv, hxs⟩ | rfl)
                · refine ⟨hxv, ?_⟩
                  intro hc
                  exact hxs (by rw [hstlstack]; exact List.mem_cons_of_mem _ hc)
                · exact ⟨hnodevis, hnstk⟩
            rw [← h.2]
            obtain ⟨fJ, hfJ⟩ := hinvJ
            have hnode_on_stl : node ∈ stl.stack := by
              rw [hstlstack]
              exact List.mem_cons_self _ _
            refine ⟨?_, ?_, ?_⟩
            · refine ⟨fun z => if z = node then (stl.visited.map fJ).foldr max 0 + 1 else fJ z, ?_⟩
              intro y hy l hl2 hsrc
              rcases (hdoneF y).mp hy with hyl | heq
              · obtain ⟨hd1, hd2⟩ := hfJ y hyl l hl2 hsrc
                have hdne : l.dstTable ≠ node := fun hc => hd1.2 (hc ▸ hnode_on_stl)
                have hyne : y ≠ node := fun hc => hyl.2 (hc ▸ hnode_on_stl)
                refine ⟨(hdoneF _).mpr (Or.inl hd1), ?_⟩
                dsimp only
                rw [if_neg hdne, if_neg hyne]
                exact hd2
              · subst heq
                have hlp : l ∈ links.filter (fun l2 => l2.srcTable == y) := by
                  rw [List.mem_filter]
                  exact ⟨hl2, by simp [hsrc]⟩
                have hd := htargetsJ l hlp
                have hdne : l.dstTable ≠ y := fun hc => hd.2 (hc ▸ hnode_on_stl)
                refine ⟨(hdoneF _).mpr (Or.inl hd), ?_⟩
                dsimp only
                rw [if_neg hdne, if_pos rfl]
                exact Nat.lt_succ_of_le (le_foldr_max fJ stl.visited l.dstTable hd.1)
            · intro x hx
              have hx1 := (hdone1 x).mp hx
              have hxl : DfsDone stl x := by
                refine ⟨hvisJ hx1.1, ?_⟩
                rw [hstkJ]
                exact hx1.2
              exact (hdoneF x).mpr (Or.inl hxl)
            · exact (hdoneF node).mpr (Or.inr rfl)
          · dsimp only at h
            simp at h

theorem dfsForest_mono (links : List TableLink) (fuel : Nat) :
    ∀ ns st b st2, dfsForest links fuel ns st = some (b, st2) → st.visited ⊆ st2.visited := by
  intro ns
  induction ns with
  | nil =>
      intro st b st2 h
      simp only [dfsForest, Option.some.injEq, Prod.mk.injEq] at h
      rw [← h.2]
      exact fun a ha => ha
  | cons n ns2 ih =>
      intro st b st2 h
      simp only [dfsForest] at h
      by_cases h1 : memB n st.visited = true
      · rw [if_pos h1] at h
        exact ih st b st2 h
      · rw [if_neg h1] at h
        cases hv : dfsVisit links fuel n st with
        | none =>
            rw [hv] at h
            exact absurd h (by simp)
        | some p =>
            obtain ⟨bv, stv⟩ := p
            rw [hv] at h
            cases bv
            · dsimp only at h
              exact (dfsVisit_mono links fuel _ _ _ _ hv).trans (ih stv b st2 h)
            · dsimp only at h
              simp only [Option.some.injEq, Prod.mk.injEq] at h
              rw [← h.2]
              exact dfsVisit_mono links fuel _ _ _ _ hv

theorem dfsForest_inv (links : List TableLink) (fuel : Nat) :
    ∀ ns st st2, dfsForest links fuel ns st = some (false, st2) →
      StackOk st → st.stack = [] → DfsInv links st →
      DfsInv links st2 ∧ st2.stack = [] ∧ (∀ x, DfsDone st x → DfsDone st2 x) ∧
        (∀ n ∈ ns, n ∈ st2.visited) := by
  intro ns
  induction ns with
  | nil =>
      intro st st2 h hok hstk hinv
      simp only [dfsForest, Option.some.injEq, Prod.mk.injEq] at h
      rw [← h.2]
      exact ⟨hinv, hstk, fun x hx => hx, by simp⟩
  | cons n ns2 ih =>
      intro st st2 h hok hstk hinv
      simp only [dfsForest] at h
      by_cases h1 : memB n st.visited = true
      · rw [if_pos h1] at h
        obtain ⟨hinv2, hstk2, hmono, hvis⟩ := ih st st2 h hok hstk hinv
        refine ⟨hinv2, hstk2, hmono, ?_⟩
        intro a ha
        rcases List.mem_cons.mp ha with rfl | ha2
        · exact dfsForest_mono links fuel ns2 st false st2 h ((memB_iff _ _).mp h1)
        · exact hvis a ha2
      · rw [if_neg h1] at h
        have hnv : n ∉ st.visited := (memB_eq_false_iff _ _).mp (Bool.eq_false_iff.mpr h1)
        cases hv : dfsVisit links fuel n st with
        | none =>
            rw [hv] at h
            exact absurd h (by simp)
        | some p =>
            obtain ⟨bv, stv⟩ := p
            rw [hv] at h
            cases bv
            · dsimp only at h
              obtain ⟨hinvV, hmonoV, hdoneV⟩ := dfsVisit_inv links fuel n st stv hv hnv hok hinv
              obtain ⟨hstkV, hvisV, hmemV, hokV⟩ := dfsVisit_basic links fuel _ _ _ hv hnv hok
              obtain ⟨hinv2, hstk2, hmono2, hvis2⟩ :=
                ih stv st2 h hokV (by rw [hstkV, hstk]) hinvV
              refine ⟨hinv2, hstk2, fun x hx => hmono2 x (hmonoV x hx), ?_⟩
              intro a ha
              rcases List.mem_cons.mp ha with rfl | ha2
              · exact dfsForest_mono links fuel ns2 stv false st2 h hmemV
              · exact hvis2 a ha2
            · dsimp only at h
              simp at h

/-! ## DFS cycle detection: main equivalence -/

theorem transGen_exists_step {r : String → String → Prop} {a b : String}
    (h : Relation.TransGen r a b) : ∃ c, r a c := by
  induction h with
  | single h1 => exact ⟨_, h1⟩
  | tail h1 h2 ih => exact ih

theorem goodRank_descent (links : List TableLink) (st : DfsState) (f : String → Nat)
    (hg : GoodRank links st f) :
    ∀ a b, Relation.TransGen (Edge links) a b → DfsDone st a → DfsDone st b ∧ f b < f a := by
  intro a b h
  induction h with
  | single h1 =>
      intro hda
      obtain ⟨l, hl, h1s, h1d⟩ := h1
      have h2 := hg a hda l hl h1s
      rw [h1d] at h2
      exact h2
  | tail hab hbc ih =>
      intro hda
      obtain ⟨hdb, hlt⟩ := ih hda
      obtain ⟨l, hl, hs, hd⟩ := hbc
      have h2 := hg _ hdb l hl hs
      rw [hd] at h2
      exact ⟨h2.1, lt_trans h2.2 hlt⟩

theorem hasTable_mem_tableNames (g : GraphState) (n : String) (h : g.hasTable n = true) :
    n ∈ g.tableNames := by
  unfold GraphState.hasTable GraphState.getTable at h
  cases hf : g.tables.find? (fun p => p.1 == n) with
  | none => rw [hf] at h; simp at h
  | some p =>
      have hmem := List.mem_of_find?_eq_some hf
      have hp0 := List.find?_some hf
      have hp : p.1 = n := by simpa using hp0
      unfold GraphState.tableNames
      rw [← hp]
      exact List.mem_map_of_mem _ hmem

theorem hasCirc_iff_hasCycle (g : GraphState) (hwf : WFLinks g) :
    hasCircularReference g = true ↔ HasCycle g.links := by
  obtain ⟨b, stF, hforest, hb⟩ := hasCirc_forest g
  have hok0 : StackOk (⟨[], []⟩ : DfsState) := fun x hx => absurd hx (List.not_mem_nil x)
  constructor
  · intro h
    have hbt : b = true := by rw [← hb]; exact h
    subst hbt
    exact dfsForest_sound g.links (dfsFuel g) g.tableNames ⟨[], []⟩ stF hforest hok0 rfl
  · intro hcyc
    by_contra hfalse
    have hbf : b = false := by
      cases b
      · rfl
      · exact absurd (hb.trans rfl) hfalse
    subst hbf
    have hinv0 : DfsInv g.links ⟨[], []⟩ :=
      ⟨fun _ => 0, fun x hx => absurd hx.1 (List.not_mem_nil x)⟩
    obtain ⟨hinvF, hstkF, hmonoF, hvisF⟩ :=
      dfsForest_inv g.links (dfsFuel g) g.tableNames ⟨[], []⟩ stF hforest hok0 rfl hinv0
    obtain ⟨n, hn⟩ := hcyc
    obtain ⟨c, hstep⟩ := transGen_exists_step hn
    obtain ⟨l, hl, hls, _⟩ := hstep
    have hnt : n ∈ g.tableNames :=
      hasTable_mem_tableNames g n (by rw [← hls]; exact (hwf l hl).1)
    have hdn : DfsDone stF n := ⟨hvisF n hnt, by rw [hstkF]; exact List.not_mem_nil n⟩
    obtain ⟨f, hf⟩ := hinvF
    have hlt := (goodRank_descent g.links stF f hf n n hn hdn).2
    omega

/-! ## The validate error aggregate -/

theorem table_validate_no_circ (t : LocalTable) :
    (t.validate).errors.countP (fun e => e.type == VErrorType.CIRCULAR_REFERENCE) = 0 := by
  unfold LocalTable.validate
  have hb : (VErrorType.MISSING_PRIMARY_KEY == VErrorType.CIRCULAR_REFERENCE) = false := by
    decide
  split_ifs <;> simp [List.countP_cons, hb]

theorem countP_flatten_zero (p : VError → Bool) (parts : List (List VError))
    (h : ∀ x ∈ parts, x.countP p = 0) : parts.flatten.countP p = 0 := by
  induction parts with
  | nil => simp
  | cons a as ih =>
      rw [List.flatten_cons, List.countP_append, h a (List.mem_cons_self _ _),
        ih (fun x hx => h x (List.mem_cons_of_mem _ hx))]

theorem validate_circ_count (g : GraphState) :
    (LocalGraph.validate g).1.errors.countP
        (fun e => e.type == VErrorType.CIRCULAR_REFERENCE) =
      if hasCircularReference g then 1 else 0 := by
  unfold LocalGraph.validate
  dsimp only
  rw [List.countP_append, List.countP_append]
  have h1 : ((g.tables.map (fun p => p.2.validate)).map (·.errors)).flatten.countP
      (fun e => e.type == VErrorType.CIRCULAR_REFERENCE) = 0 := by
    refine countP_flatten_zero _ _ ?_
    intro x hx
    obtain ⟨r, hr, hxr⟩ := List.mem_map.mp hx
    obtain ⟨pr, hpr, hrr⟩ := List.mem_map.mp hr
    rw [← hxr, ← hrr]
    exact table_validate_no_circ pr.2
  have h2 : (g.links.filterMap (fun l =>
      let dstTable := (g.getTable l.dstTable).getD phantomTable
      if !jsTruthyOptStr dstTable.metadata.primaryKey then
        some { type := .INVALID_LINK
               message := "Destination table " ++ l.dstTable ++ " has no primary key"
               table := some l.dstTable : VError }
      else none)).countP (fun e => e.type == VErrorType.CIRCULAR_REFERENCE) = 0 := by
    rw [List.countP_eq_zero]
    intro e he hc
    obtain ⟨l, hl, hsome⟩ := List.mem_filterMap.mp he
    dsimp only at hsome
    by_cases hcond :
        (!jsTruthyOptStr ((g.getTable l.dstTable).getD phantomTable).metadata.primaryKey) = true
    · rw [if_pos hcond] at hsome
      cases hsome
      exact Bool.noConfusion hc
    · rw [if_neg hcond] at hsome
      exact Option.noConfusion hsome
  rw [h1, h2]
  by_cases hc : hasCircularReference g = true
  · rw [if_pos hc, hc]
    simp [List.countP_cons]
  · have hcf : hasCircularReference g = false := Bool.eq_false_iff.mpr hc
    rw [if_neg hc, hcf]
    simp

/-- C1: in every reachable graph state, `validate()` reports exactly one
`CIRCULAR_REFERENCE` error exactly when the directed graph whose edges are
the links (srcTable to dstTable) contains a directed cycle anywhere,
including in components not reachable from the first table; and the returned
`valid` flag is true exactly when the aggregated error list is empty. The
DFS of `hasCircularReference` is proved equivalent to the existence of a
nonempty directed path from some node to itself. -/
theorem C1_validate_cycle_detection (g : GraphState) (h : Reachable g) :
    ((LocalGraph.validate g).1.errors.countP
        (fun e => e.type == VErrorType.CIRCULAR_REFERENCE) = 1 ↔ HasCycle g.links) ∧
    ((LocalGraph.validate g).1.valid = true ↔ (LocalGraph.validate g).1.errors = []) := by
  obtain ⟨hwf, _, _⟩ := reachable_ginv h
  constructor
  · rw [validate_circ_count g]
    by_cases hc : hasCircularReference g = true
    · rw [if_pos hc]
      exact iff_of_true rfl ((hasCirc_iff_hasCycle g hwf).mp hc)
    · rw [if_neg hc]
      exact iff_of_false (by omega) (fun hcyc => hc ((hasCirc_iff_hasCycle g hwf).mpr hcyc))
  · unfold LocalGraph.validate
    dsimp only
    exact List.isEmpty_iff

/-- C1 witness: the concrete two-table graph with links `A.b -> B` and
`B.a -> A` is reachable, contains a two-edge cycle, and its validation
reports exactly one `CIRCULAR_REFERENCE` error. -/
theorem C1_witness :
    (LocalGraph.validate graphCycle).1.errors.countP
        (fun e => e.type == VErrorType.CIRCULAR_REFERENCE) = 1 := by
  have hreach : Reachable graphCycle :=
    Reachable.link "B" "a" "A" (Reachable.link "A" "b" "B" (Reachable.init [tblA, tblB]))
  have hcyc : HasCycle graphCycle.links := by
    have e1 : Edge graphCycle.links "A" "B" := ⟨⟨"A", "b", "B", false⟩, by decide, rfl, rfl⟩
    have e2 : Edge graphCycle.links "B" "A" := ⟨⟨"B", "a", "A", false⟩, by decide, rfl, rfl⟩
    exact ⟨"A", Relation.TransGen.tail (Relation.TransGen.single e1) e2⟩
  exact ((C1_validate_cycle_detection graphCycle hreach).1).mpr hcyc

end KumoRFM
